import Mathlib

/-!
Verification of the fparkan archive/resource decoding core.

The Rust sources are shallowly embedded: bytes are naturals kept below 256
by explicit `% 256` at every wrapping operation, byte buffers are `List Nat`,
fallible functions return `Except` over error types mirroring each crate's
`error.rs`, and `u8`/`u16`/`u32` little-endian reads are spelled out.
Loops whose iteration count is bounded by a value available at entry are
translated to structural recursion on that bound; the two source loops with
no such bound (the LZSS-family output loops, which provably add at least one
output byte per iteration, and the Huffman tree walk) take an explicit fuel
argument whose exhaustion yields a dedicated artifact error that is proved
or shown unreachable where a claim depends on it.
-/

set_option maxRecDepth 10000

namespace Rsli

/-- XOR cipher state (`XorState` in crates/rsli/src/lib.rs): two `u8` words. -/
structure XorState where
  lo : Nat
  hi : Nat
deriving Repr, DecidableEq

/-- `XorState::new`: `lo = key & 0xFF`, `hi = (key >> 8) & 0xFF`. -/
def XorState.new (key16 : Nat) : XorState :=
  { lo := key16 % 256, hi := key16 / 256 % 256 }

/-- `XorState::decrypt_byte`: advance the state and decrypt one byte.
`wrapping_shl(1)` on `u8` is `· * 2 % 256`; `>> 1` on `u8` is `· / 2`.
Returns (updated state, decrypted byte). -/
def XorState.decrypt_byte (s : XorState) (encrypted : Nat) : XorState × Nat :=
  let lo := s.hi ^^^ s.lo * 2 % 256
  let decrypted := encrypted ^^^ lo
  let hi := lo ^^^ s.hi / 2
  (⟨lo, hi⟩, decrypted)

/-- The per-byte fold of `xor_stream` (state threaded left to right). -/
def xorStreamAux (s : XorState) : List Nat → List Nat
  | [] => []
  | b :: rest => (s.decrypt_byte b).2 :: xorStreamAux (s.decrypt_byte b).1 rest

/-- `xor_stream` in crates/rsli/src/lib.rs: run the cipher over a buffer. -/
def xor_stream (data : List Nat) (key16 : Nat) : List Nat :=
  xorStreamAux (XorState.new key16) data

/-- The state update of `decrypt_byte` does not depend on the input byte. -/
theorem decrypt_byte_state_const (s : XorState) (b c : Nat) :
    (s.decrypt_byte b).1 = (s.decrypt_byte c).1 := rfl

/-- Running the cipher twice from the same state restores the input:
the keystream byte `lo` is identical in both runs and `(b ^^^ lo) ^^^ lo = b`. -/
theorem xorStreamAux_involution (data : List Nat) :
    ∀ s : XorState, xorStreamAux s (xorStreamAux s data) = data := by
  induction data with
  | nil => intro s; rfl
  | cons b rest ih =>
      intro s
      simp only [xorStreamAux]
      refine congrArg₂ (· :: ·) ?_ ?_
      · show (b ^^^ (s.hi ^^^ s.lo * 2 % 256)) ^^^ (s.hi ^^^ s.lo * 2 % 256) = b
        exact Nat.xor_cancel_right _ b
      · exact ih _

theorem xor_stream_involution (data : List Nat) (key16 : Nat) :
    xor_stream (xor_stream data key16) key16 = data :=
  xorStreamAux_involution data (XorState.new key16)

/-- `xor_stream` preserves the buffer length. -/
theorem xorStreamAux_length (data : List Nat) :
    ∀ s : XorState, (xorStreamAux s data).length = data.length := by
  induction data with
  | nil => intro s; rfl
  | cons b rest ih => intro s; simp [xorStreamAux, ih]

theorem xor_stream_length (data : List Nat) (key16 : Nat) :
    (xor_stream data key16).length = data.length :=
  xorStreamAux_length data (XorState.new key16)

end Rsli

/-- C3 (counterexample to the claim as stated): there is no byte sequence `X`
and 16-bit key `k` for which decrypting twice fails to restore `X` — the
cipher's keystream is independent of the data, so double decryption is the
identity on every input, contradicting "not an involution in general". -/
theorem c3_not_involution_counterexample :
    ¬ ∃ (X : List Nat) (k : Nat), Rsli.xor_stream (Rsli.xor_stream X k) k ≠ X := by
  rintro ⟨X, k, h⟩
  exact h (Rsli.xor_stream_involution X k)

/-- C3 (amended): applying the XOR stream decoder twice with the same 16-bit
key returns the original bytes for every byte sequence and every key — the
keystream depends only on the key, so the cipher is an involution and
encrypt-then-decrypt with the same key is the identity. -/
theorem c3_xor_double_application_identity (X : List Nat) (k : Nat) :
    Rsli.xor_stream (Rsli.xor_stream X k) k = X :=
  Rsli.xor_stream_involution X k

namespace Rsli

/-- Error type mirroring crates/rsli/src/error.rs (I/O variant omitted: the
embedding starts from in-memory bytes). `LoopFuelExhausted` is an artifact of
the embedding for the source's unbounded loops; it is proved unreachable where
a claim depends on it. -/
inductive Error where
  | InvalidMagic (got : List Nat)
  | UnsupportedVersion (got : Nat)
  | InvalidEntryCount (got : Int)
  | TooManyEntries (got : Nat)
  | EntryTableOutOfBounds (tableOffset tableLen fileLen : Nat)
  | EntryTableDecryptFailed
  | CorruptEntryTable (msg : String)
  | EntryIdOutOfRange (id entryCount : Nat)
  | EntryDataOutOfBounds (id offset size fileLen : Nat)
  | AoTrailerInvalid
  | MediaOverlayOutOfBounds (overlay fileLen : Nat)
  | UnsupportedMethod (raw : Nat)
  | PackedSizePastEof (id offset packedSize fileLen : Nat)
  | DeflateEofPlusOneQuirkRejected (id : Nat)
  | DecompressionFailed (msg : String)
  | OutputSizeMismatch (expected got : Nat)
  | IntegerOverflow
  | LoopFuelExhausted
deriving Repr, DecidableEq

/-- The `read_byte` closure of `lzss_decompress_simple`: read `data[pos]`,
decrypting through the XOR state when one is present. Returns the byte and
the updated optional state. -/
def read_byte (data : List Nat) (pos : Nat) (state : Option XorState) :
    Option (Nat × Option XorState) :=
  match data.get? pos with
  | none => none
  | some encrypted =>
    match state with
    | some s => some ((s.decrypt_byte encrypted).2, some (s.decrypt_byte encrypted).1)
    | none => some (encrypted, none)

/-- The back-reference copy loop of `lzss_decompress_simple` (`for step in
0..length` with the early `break` once `out` reaches `expected`). Arguments
after `offset`: current `step`, remaining iterations, ring, ring cursor, out.
Result: (ring, ring cursor, out). -/
def lzssCopy (expected offset : Nat) :
    Nat → Nat → List Nat → Nat → List Nat → List Nat × Nat × List Nat
  | _, 0, ring, ringPos, out => (ring, ringPos, out)
  | step, r + 1, ring, ringPos, out =>
    let byte := ring.getD ((offset + step) % 4096) 0
    let out' := out ++ [byte]
    let ring' := ring.set ringPos byte
    let ringPos' := (ringPos + 1) % 4096
    if expected ≤ out'.length then (ring', ringPos', out')
    else lzssCopy expected offset (step + 1) r ring' ringPos' out'

/-- The main `while out.len() < expected_size` loop of
`lzss_decompress_simple`, including the trailing length check after the loop.
`fuel` is the embedding's bound on the iteration count (each iteration appends
at least one output byte, so `expected` units suffice; exhaustion yields the
artifact error, proved unreachable below). Arguments after `fuel`:
ring, ring cursor, input cursor, optional XOR state, control byte, bits left,
out. -/
def lzssLoop (data : List Nat) (expected : Nat) :
    Nat → List Nat → Nat → Nat → Option XorState → Nat → Nat → List Nat →
    Except Error (List Nat)
  | fuel, ring, ringPos, inPos, xs, control, bitsLeft, out =>
    if expected ≤ out.length then
      if out.length ≠ expected then .error (.DecompressionFailed "lzss-simple")
      else .ok out
    else
      match fuel with
      | 0 => .error .LoopFuelExhausted
      | fuel + 1 =>
        match
          (if bitsLeft = 0 then
            match read_byte data inPos xs with
            | none => none
            | some (byte, xs') => some (byte, 8, inPos + 1, xs')
          else some (control, bitsLeft, inPos, xs)) with
        | none => .error (.DecompressionFailed "lzss-simple: unexpected EOF")
        | some (control, bitsLeft, inPos, xs) =>
          if control % 2 = 1 then
            match read_byte data inPos xs with
            | none => .error (.DecompressionFailed "lzss-simple: unexpected EOF")
            | some (byte, xs) =>
              lzssLoop data expected fuel (ring.set ringPos byte)
                ((ringPos + 1) % 4096) (inPos + 1) xs (control / 2)
                (bitsLeft - 1) (out ++ [byte])
          else
            match read_byte data inPos xs with
            | none => .error (.DecompressionFailed "lzss-simple: unexpected EOF")
            | some (low, xs) =>
              match read_byte data (inPos + 1) xs with
              | none => .error (.DecompressionFailed "lzss-simple: unexpected EOF")
              | some (high, xs) =>
                let offset := low ||| ((high &&& 0xF0) <<< 4)
                let length := (high &&& 0x0F) + 3
                let res := lzssCopy expected offset 0 length ring ringPos out
                lzssLoop data expected fuel res.1 res.2.1 (inPos + 2) xs
                  (control / 2) (bitsLeft - 1) res.2.2

/-- `lzss_decompress_simple` in crates/rsli/src/lib.rs: ring of 4096 spaces,
write cursor `0xFEE`, empty control register. -/
def lzss_decompress_simple (data : List Nat) (expected_size : Nat)
    (xor_key : Option Nat) : Except Error (List Nat) :=
  lzssLoop data expected_size expected_size (List.replicate 4096 0x20) 0xFEE 0
    (xor_key.map XorState.new) 0 0 []

end Rsli

namespace Rsli

/-- Modelled from the spec's words (§4.1 LZSS), for comparison with the code's
`lzss_decompress_simple`: a back-reference emits all `(high & 0x0F) + 3` bytes
copied from ring positions `offset, offset+1, … mod 4096`, each written back —
with no early stop inside the copy. -/
def lzssSpecCopy (offset : Nat) :
    Nat → Nat → List Nat → Nat → List Nat → List Nat × Nat × List Nat
  | _, 0, ring, ringPos, out => (ring, ringPos, out)
  | step, r + 1, ring, ringPos, out =>
    let byte := ring.getD ((offset + step) % 4096) 0
    lzssSpecCopy offset (step + 1) r (ring.set ringPos byte) ((ringPos + 1) % 4096)
      (out ++ [byte])

/-- Modelled from the spec's words (§4.1 LZSS): control bits consumed LSB
first, 1 = literal, 0 = back-reference with offset `low | ((high & 0xF0) << 4)`
and length `(high & 0x0F) + 3`; decoding stops once at least the expected
number of bytes has been produced and returns exactly the first `expected`
bytes (§4.1: "returns a byte buffer of exactly the expected length or fails");
`none` on input exhaustion. The fuel argument mirrors the code embedding's. -/
def lzssSpecLoop (data : List Nat) (expected : Nat) :
    Nat → List Nat → Nat → Nat → Nat → Nat → List Nat → Option (List Nat)
  | fuel, ring, ringPos, inPos, control, bitsLeft, out =>
    if expected ≤ out.length then some (out.take expected)
    else
      match fuel with
      | 0 => none
      | fuel + 1 =>
        match
          (if bitsLeft = 0 then
            match data.get? inPos with
            | none => none
            | some byte => some (byte, 8, inPos + 1)
          else some (control, bitsLeft, inPos)) with
        | none => none
        | some (control, bitsLeft, inPos) =>
          if control % 2 = 1 then
            match data.get? inPos with
            | none => none
            | some byte =>
              lzssSpecLoop data expected fuel (ring.set ringPos byte)
                ((ringPos + 1) % 4096) (inPos + 1) (control / 2) (bitsLeft - 1)
                (out ++ [byte])
          else
            match data.get? inPos with
            | none => none
            | some low =>
              match data.get? (inPos + 1) with
              | none => none
              | some high =>
                let offset := low ||| ((high &&& 0xF0) <<< 4)
                let length := (high &&& 0x0F) + 3
                let res := lzssSpecCopy offset 0 length ring ringPos out
                lzssSpecLoop data expected fuel res.1 res.2.1 (inPos + 2)
                  (control / 2) (bitsLeft - 1) res.2.2

/-- The spec's LZSS decoder: ring of 4096 spaces, cursor 0xFEE. -/
def lzssReference (data : List Nat) (expected : Nat) : Option (List Nat) :=
  lzssSpecLoop data expected expected (List.replicate 4096 0x20) 0xFEE 0 0 0 []

theorem lzssSpecCopy_out_length (offset : Nat) :
    ∀ (r step : Nat) (ring : List Nat) (rp : Nat) (out : List Nat),
      (lzssSpecCopy offset step r ring rp out).2.2.length = out.length + r := by
  intro r
  induction r with
  | zero => intro step ring rp out; rfl
  | succ r ih =>
      intro step ring rp out
      simp only [lzssSpecCopy, ih]
      simp
      omega

/-- The copied bytes do not depend on `out`: the result extends `out`. -/
theorem lzssSpecCopy_out_append (offset : Nat) :
    ∀ (r step : Nat) (ring : List Nat) (rp : Nat) (out : List Nat),
      (lzssSpecCopy offset step r ring rp out).2.2 =
        out ++ (lzssSpecCopy offset step r ring rp []).2.2 := by
  intro r
  induction r with
  | zero => intro step ring rp out; simp [lzssSpecCopy]
  | succ r ih =>
      intro step ring rp out
      simp only [lzssSpecCopy]
      rw [ih _ _ _ (out ++ _), ih _ _ _ ([] ++ _)]
      simp

theorem lzssCopy_out_le (expected offset : Nat) :
    ∀ (r step : Nat) (ring : List Nat) (rp : Nat) (out : List Nat),
      out.length < expected →
      (lzssCopy expected offset step r ring rp out).2.2.length ≤ expected := by
  intro r
  induction r with
  | zero => intro step ring rp out h; simpa [lzssCopy] using Nat.le_of_lt h
  | succ r ih =>
      intro step ring rp out h
      simp only [lzssCopy]
      split
      · simpa using h
      · next hle =>
          simp only [List.length_append, List.length_cons, List.length_nil] at hle
          exact ih _ _ _ _
            (by simp only [List.length_append, List.length_cons, List.length_nil]; omega)

theorem lzssCopy_out_ge (expected offset : Nat) :
    ∀ (r step : Nat) (ring : List Nat) (rp : Nat) (out : List Nat),
      out.length ≤ (lzssCopy expected offset step r ring rp out).2.2.length := by
  intro r
  induction r with
  | zero => intro step ring rp out; simp [lzssCopy]
  | succ r ih =>
      intro step ring rp out
      simp only [lzssCopy]
      split
      · simp
      · exact le_trans (by simp) (ih _ _ _ _)

theorem lzssCopy_out_gt (expected offset : Nat) (r step : Nat) (ring : List Nat)
    (rp : Nat) (out : List Nat) (hr : 0 < r) :
    out.length + 1 ≤ (lzssCopy expected offset step r ring rp out).2.2.length := by
  obtain ⟨r, rfl⟩ := Nat.exists_eq_succ_of_ne_zero (Nat.pos_iff_ne_zero.mp hr)
  simp only [lzssCopy]
  split
  · simp
  · exact le_trans (by simp) (lzssCopy_out_ge expected offset _ _ _ _ _)

/-- Relation between the code's truncating copy and the spec's full copy:
when the full copy stays within the expected size the two agree exactly;
when it overshoots, the truncated copy's output is the expected-length
prefix of the full copy's output. -/
theorem lzssCopy_spec_rel (expected offset : Nat) :
    ∀ (r step : Nat) (ring : List Nat) (rp : Nat) (out : List Nat),
      out.length < expected →
      (out.length + r ≤ expected →
        lzssCopy expected offset step r ring rp out =
          lzssSpecCopy offset step r ring rp out) ∧
      (expected < out.length + r →
        (lzssCopy expected offset step r ring rp out).2.2 =
            (lzssSpecCopy offset step r ring rp out).2.2.take expected ∧
          (lzssCopy expected offset step r ring rp out).2.2.length = expected) := by
  intro r
  induction r with
  | zero =>
      intro step ring rp out h
      exact ⟨fun _ => rfl, fun hlt => absurd hlt (by omega)⟩
  | succ r ih =>
      intro step ring rp out h
      constructor
      · intro hle
        simp only [lzssCopy, lzssSpecCopy]
        split
        · next hstop =>
            simp only [List.length_append, List.length_cons, List.length_nil] at hstop
            have hr0 : r = 0 := by omega
            subst hr0
            rfl
        · next hcont =>
            simp only [List.length_append, List.length_cons, List.length_nil] at hcont
            exact (ih _ _ _ _
                (by simp only [List.length_append, List.length_cons, List.length_nil]; omega)).1
              (by simp only [List.length_append, List.length_cons, List.length_nil]; omega)
      · intro hgt
        simp only [lzssCopy, lzssSpecCopy]
        split
        · next hstop =>
            simp only [List.length_append, List.length_cons, List.length_nil] at hstop
            have hlen : (out ++ [ring.getD ((offset + step) % 4096) 0]).length = expected := by
              simp only [List.length_append, List.length_cons, List.length_nil]; omega
            refine ⟨?_, hlen⟩
            rw [lzssSpecCopy_out_append]
            rw [← hlen]
            exact (List.take_left _ _).symm
        · next hcont =>
            simp only [List.length_append, List.length_cons, List.length_nil] at hcont
            exact (ih _ _ _ _
                (by simp only [List.length_append, List.length_cons, List.length_nil]; omega)).2
              (by simp only [List.length_append, List.length_cons, List.length_nil]; omega)

end Rsli

namespace Rsli

/-- The cipher state after processing any `n` input bytes: `decrypt_byte`
updates the state identically for every input byte, so the byte argument is
irrelevant (taken as 0). -/
def XorState.advance (s : XorState) : Nat → XorState
  | 0 => s
  | n + 1 => XorState.advance (s.decrypt_byte 0).1 n

theorem XorState.advance_succ (s : XorState) (n : Nat) :
    s.advance (n + 1) = ((s.advance n).decrypt_byte 0).1 := by
  induction n generalizing s with
  | zero => rfl
  | succ n ih =>
      show XorState.advance (s.decrypt_byte 0).1 (n + 1) = _
      rw [ih]
      rfl

/-- Positional characterisation of the cipher: byte `i` of the output is the
input byte decrypted with the state advanced `i` times. -/
theorem xorStreamAux_get? (data : List Nat) :
    ∀ (s : XorState) (i : Nat),
      (xorStreamAux s data).get? i =
        (data.get? i).map (fun b => ((s.advance i).decrypt_byte b).2) := by
  induction data with
  | nil => intro s i; simp [xorStreamAux]
  | cons b rest ih =>
      intro s i
      cases i with
      | zero => simp [xorStreamAux, XorState.advance]
      | succ i =>
          simp only [xorStreamAux, List.get?_cons_succ]
          rw [ih]
          rfl

theorem xor_stream_get? (data : List Nat) (k i : Nat) :
    (xor_stream data k).get? i =
      (data.get? i).map (fun b => (((XorState.new k).advance i).decrypt_byte b).2) :=
  xorStreamAux_get? data (XorState.new k) i

/-- Reading byte `i` through the fused XOR state equals reading byte `i` of the
pre-decrypted stream, with the state advancing to position `i + 1`. -/
theorem read_byte_advance (data : List Nat) (k i : Nat) :
    read_byte data i (some ((XorState.new k).advance i)) =
      (read_byte (xor_stream data k) i none).map
        (fun p => (p.1, some ((XorState.new k).advance (i + 1)))) := by
  simp only [read_byte, xor_stream_get?]
  cases hb : data.get? i with
  | none => rfl
  | some b =>
      simp only [Option.map_some]
      refine congrArg some (Prod.ext rfl ?_)
      show some (((XorState.new k).advance i).decrypt_byte b).1 = _
      rw [decrypt_byte_state_const _ b 0, ← XorState.advance_succ]

end Rsli

namespace Rsli

/-- `read_byte` with no cipher state is a plain indexed read. -/
theorem read_byte_none_eq (data : List Nat) (ip : Nat) :
    read_byte data ip none = (data.get? ip).map (fun b => (b, none)) := by
  simp only [read_byte]
  cases data.get? ip <;> rfl

theorem read_byte_some_state (data : List Nat) (ip : Nat) (s : XorState) :
    read_byte data ip (some s) =
      (data.get? ip).map (fun b => ((s.decrypt_byte b).2, some (s.decrypt_byte b).1)) := by
  simp only [read_byte]
  cases data.get? ip <;> rfl

theorem lzssLoop_fused (data : List Nat) (k expected : Nat) :
    ∀ (fuel : Nat) (ring : List Nat) (rp ip c bl : Nat) (out : List Nat),
      lzssLoop data expected fuel ring rp ip
          (some ((XorState.new k).advance ip)) c bl out =
        lzssLoop (xor_stream data k) expected fuel ring rp ip none c bl out := by
  intro fuel
  induction fuel with
  | zero => intro ring rp ip c bl out; rfl
  | succ fuel ih =>
      intro ring rp ip c bl out
      simp only [lzssLoop]
      by_cases hexit : expected ≤ out.length
      · simp [hexit]
      · simp only [if_neg hexit]
        by_cases hbl : bl = 0
        · simp only [if_pos hbl, read_byte_some_state, read_byte_none_eq, xor_stream_get?]
          cases hb : data.get? ip with
          | none => rfl
          | some b =>
              simp only [Option.map_some']
              rw [decrypt_byte_state_const _ b 0, ← XorState.advance_succ]
              by_cases hc : (((XorState.new k).advance ip).decrypt_byte b).2 % 2 = 1
              · simp only [if_pos hc, read_byte_some_state, read_byte_none_eq, xor_stream_get?]
                cases hb2 : data.get? (ip + 1) with
                | none => rfl
                | some b2 =>
                    simp only [Option.map_some']
                    rw [decrypt_byte_state_const _ b2 0, ← XorState.advance_succ]
                    exact ih _ _ _ _ _ _
              · simp only [if_neg hc, read_byte_some_state, read_byte_none_eq, xor_stream_get?]
                cases hb2 : data.get? (ip + 1) with
                | none => rfl
                | some b2 =>
                    simp only [Option.map_some']
                    rw [decrypt_byte_state_const _ b2 0, ← XorState.advance_succ]
                    simp only [read_byte_some_state, read_byte_none_eq, xor_stream_get?]
                    cases hb3 : data.get? (ip + 1 + 1) with
                    | none => rfl
                    | some b3 =>
                        simp only [Option.map_some']
                        rw [decrypt_byte_state_const _ b3 0, ← XorState.advance_succ]
                        exact ih _ _ _ _ _ _
        · simp only [if_neg hbl]
          by_cases hc : c % 2 = 1
          · simp only [if_pos hc, read_byte_some_state, read_byte_none_eq, xor_stream_get?]
            cases hb : data.get? ip with
            | none => rfl
            | some b =>
                simp only [Option.map_some']
                rw [decrypt_byte_state_const _ b 0, ← XorState.advance_succ]
                exact ih _ _ _ _ _ _
          · simp only [if_neg hc, read_byte_some_state, read_byte_none_eq, xor_stream_get?]
            cases hb : data.get? ip with
            | none => rfl
            | some b =>
                simp only [Option.map_some']
                rw [decrypt_byte_state_const _ b 0, ← XorState.advance_succ]
                simp only [read_byte_some_state, read_byte_none_eq, xor_stream_get?]
                cases hb2 : data.get? (ip + 1) with
                | none => rfl
                | some b2 =>
                    simp only [Option.map_some']
                    rw [decrypt_byte_state_const _ b2 0, ← XorState.advance_succ]
                    exact ih _ _ _ _ _ _

end Rsli

namespace Rsli

/-- C2 helper: the fused decoder equals the plain decoder on the
pre-decrypted input (`xor_stream` is positional because its state never
depends on the data). -/
theorem lzss_fused_eq_pre_decrypted (data : List Nat) (expected k : Nat) :
    lzss_decompress_simple data expected (some k) =
      lzss_decompress_simple (xor_stream data k) expected none := by
  unfold lzss_decompress_simple
  exact lzssLoop_fused data k expected expected _ _ _ _ _ _

end Rsli

namespace Rsli

/-- The back-reference step of the code/spec correspondence: after a
back-reference token the truncating and the full copy either agree exactly or
the loop terminates on both sides with the same expected-length output. -/
theorem lzssLoop_spec_backref (data : List Nat) (expected fuel off len : Nat)
    (ring : List Nat) (rp : Nat) (out : List Nat)
    (hout : out.length < expected) (ip c bl : Nat)
    (ih : ∀ (ring : List Nat) (rp ip c bl : Nat) (out : List Nat),
      out.length ≤ expected →
      (lzssLoop data expected fuel ring rp ip none c bl out).toOption =
        lzssSpecLoop data expected fuel ring rp ip c bl out) :
    (lzssLoop data expected fuel
        (lzssCopy expected off 0 len ring rp out).1
        (lzssCopy expected off 0 len ring rp out).2.1 ip none c bl
        (lzssCopy expected off 0 len ring rp out).2.2).toOption =
      lzssSpecLoop data expected fuel
        (lzssSpecCopy off 0 len ring rp out).1
        (lzssSpecCopy off 0 len ring rp out).2.1 ip c bl
        (lzssSpecCopy off 0 len ring rp out).2.2 := by
  rcases le_or_lt (out.length + len) expected with hle | hgt
  · have heq := (lzssCopy_spec_rel expected off len 0 ring rp out hout).1 hle
    rw [heq]
    exact ih _ _ _ _ _ _
      (by rw [lzssSpecCopy_out_length]; exact hle)
  · obtain ⟨htake, hexp⟩ := (lzssCopy_spec_rel expected off len 0 ring rp out hout).2 hgt
    have hflen : (lzssSpecCopy off 0 len ring rp out).2.2.length = out.length + len :=
      lzssSpecCopy_out_length off len 0 ring rp out
    unfold lzssLoop lzssSpecLoop
    rw [if_pos (le_of_eq hexp.symm), if_neg (by rw [hexp]; exact fun h => h rfl),
      if_pos (by rw [hflen]; omega)]
    simp only [Except.toOption]
    rw [htake]

end Rsli

namespace Rsli

/-- Code/spec correspondence for the LZSS main loop: with no XOR key the
code's loop (which truncates a final over-long back-reference) and the spec's
loop (which emits the full back-reference and then keeps the first `expected`
bytes) produce the same result. -/
theorem lzssLoop_spec_rel (data : List Nat) (expected : Nat) :
    ∀ (fuel : Nat) (ring : List Nat) (rp ip c bl : Nat) (out : List Nat),
      out.length ≤ expected →
      (lzssLoop data expected fuel ring rp ip none c bl out).toOption =
        lzssSpecLoop data expected fuel ring rp ip c bl out := by
  intro fuel
  induction fuel with
  | zero =>
      intro ring rp ip c bl out hinv
      simp only [lzssLoop, lzssSpecLoop]
      by_cases hexit : expected ≤ out.length
      · have heq : out.length = expected := le_antisymm hinv hexit
        rw [if_pos hexit, if_pos hexit, if_neg (by omega)]
        simp only [Except.toOption]
        rw [List.take_of_length_le (le_of_eq heq)]
      · simp only [if_neg hexit]
        rfl
  | succ fuel ih =>
      intro ring rp ip c bl out hinv
      simp only [lzssLoop, lzssSpecLoop]
      by_cases hexit : expected ≤ out.length
      · have heq : out.length = expected := le_antisymm hinv hexit
        rw [if_pos hexit, if_pos hexit, if_neg (by omega)]
        simp only [Except.toOption]
        rw [List.take_of_length_le (le_of_eq heq)]
      · simp only [if_neg hexit]
        simp only [read_byte_none_eq]
        have hout : out.length < expected := lt_of_not_le hexit
        by_cases hbl : bl = 0
        · simp only [if_pos hbl]
          cases hb : data.get? ip with
          | none => rfl
          | some b =>
              simp only [Option.map_some']
              by_cases hcb : b % 2 = 1
              · simp only [if_pos hcb]
                simp only [read_byte_none_eq]
                cases hb2 : data.get? (ip + 1) with
                | none => rfl
                | some b2 =>
                    simp only [Option.map_some']
                    exact ih _ _ _ _ _ _
                      (by simp only [List.length_append, List.length_cons,
                        List.length_nil]; omega)
              · simp only [if_neg hcb]
                simp only [read_byte_none_eq]
                cases hb2 : data.get? (ip + 1) with
                | none => rfl
                | some low =>
                    simp only [Option.map_some', read_byte_none_eq]
                    cases hb3 : data.get? (ip + 1 + 1) with
                    | none => rfl
                    | some high =>
                        simp only [Option.map_some']
                        exact lzssLoop_spec_backref data expected fuel _ _ _ _ _
                          hout _ _ _ ih
        · simp only [if_neg hbl]
          by_cases hcb : c % 2 = 1
          · simp only [if_pos hcb]
            simp only [read_byte_none_eq]
            cases hb : data.get? ip with
            | none => rfl
            | some b =>
                simp only [Option.map_some']
                exact ih _ _ _ _ _ _
                  (by simp only [List.length_append, List.length_cons,
                    List.length_nil]; omega)
          · simp only [if_neg hcb]
            simp only [read_byte_none_eq]
            cases hb : data.get? ip with
            | none => rfl
            | some low =>
                simp only [Option.map_some', read_byte_none_eq]
                cases hb2 : data.get? (ip + 1) with
                | none => rfl
                | some high =>
                    simp only [Option.map_some']
                    exact lzssLoop_spec_backref data expected fuel _ _ _ _ _
                      hout _ _ _ ih

/-- C2 helper: the plain decoder agrees with the spec's reference decoder. -/
theorem lzss_eq_reference (data : List Nat) (expected : Nat) :
    (lzss_decompress_simple data expected none).toOption =
      lzssReference data expected := by
  unfold lzss_decompress_simple lzssReference
  exact lzssLoop_spec_rel data expected expected _ _ _ _ _ _ (by simp)

end Rsli

/-- C2: the LZSS decoder equals the spec's reference algorithm (4096-byte ring
of spaces, write cursor 0xFEE, LSB-first control bits, literals written back,
back-references `offset = low | ((high & 0xF0) << 4)`, `length = (high & 0x0F)
+ 3` copied mod 4096 and written back), and the fused XOR variant (method
0x060) advances the cipher state over every input byte in order — control
bytes included — so its output equals the reference run on the positionally
pre-decrypted input `xor_stream data k`. -/
theorem c2_lzss_reference_and_fused_xor (data : List Nat) (expected k : Nat) :
    (Rsli.lzss_decompress_simple data expected none).toOption =
        Rsli.lzssReference data expected ∧
      Rsli.lzss_decompress_simple data expected (some k) =
        Rsli.lzss_decompress_simple (Rsli.xor_stream data k) expected none ∧
      (Rsli.lzss_decompress_simple data expected (some k)).toOption =
        Rsli.lzssReference (Rsli.xor_stream data k) expected := by
  refine ⟨Rsli.lzss_eq_reference data expected,
    Rsli.lzss_fused_eq_pre_decrypted data expected k, ?_⟩
  rw [Rsli.lzss_fused_eq_pre_decrypted data expected k]
  exact Rsli.lzss_eq_reference _ expected

namespace Rsli

/-- Every successful run of the LZSS loop returns exactly `expected` bytes,
and neither the post-loop length-mismatch error nor the embedding's fuel
artifact is ever produced (given enough fuel, which the wrapper supplies). -/
theorem lzssLoop_exact_length (data : List Nat) (expected : Nat) :
    ∀ (fuel : Nat) (ring : List Nat) (rp ip : Nat) (xs : Option XorState)
      (c bl : Nat) (out : List Nat),
      out.length ≤ expected → expected ≤ out.length + fuel →
      (∀ res, lzssLoop data expected fuel ring rp ip xs c bl out = .ok res →
          res.length = expected) ∧
        lzssLoop data expected fuel ring rp ip xs c bl out ≠
          .error (.DecompressionFailed "lzss-simple") ∧
        lzssLoop data expected fuel ring rp ip xs c bl out ≠
          .error .LoopFuelExhausted := by
  intro fuel
  induction fuel with
  | zero =>
      intro ring rp ip xs c bl out h1 h2
      have heq : out.length = expected := by omega
      have hres : lzssLoop data expected 0 ring rp ip xs c bl out = .ok out := by
        simp only [lzssLoop]
        rw [if_pos (le_of_eq heq.symm), if_neg (by omega)]
      rw [hres]
      exact ⟨(fun res h => by cases h; exact heq), (by simp), (by simp)⟩
  | succ fuel ih =>
      intro ring rp ip xs c bl out h1 h2
      by_cases hexit : expected ≤ out.length
      · have heq : out.length = expected := le_antisymm h1 hexit
        have hres : lzssLoop data expected (fuel + 1) ring rp ip xs c bl out =
            .ok out := by
          simp only [lzssLoop]
          rw [if_pos hexit, if_neg (by omega)]
        rw [hres]
        exact ⟨(fun res h => by cases h; exact heq), (by simp), (by simp)⟩
      · simp only [lzssLoop, if_neg hexit]
        by_cases hbl : bl = 0
        · simp only [if_pos hbl]
          cases hr : read_byte data ip xs with
          | none => exact ⟨(fun res h => by cases h), (by simp), (by simp)⟩
          | some p =>
              obtain ⟨b, xs'⟩ := p
              simp only []
              by_cases hcb : b % 2 = 1
              · simp only [if_pos hcb]
                cases hr2 : read_byte data (ip + 1) xs' with
                | none => exact ⟨(fun res h => by cases h), (by simp), (by simp)⟩
                | some q =>
                    obtain ⟨b2, xs2⟩ := q
                    exact ih _ _ _ _ _ _ _
                      (by simp only [List.length_append, List.length_cons,
                        List.length_nil]; omega)
                      (by simp only [List.length_append, List.length_cons,
                        List.length_nil]; omega)
              · simp only [if_neg hcb]
                cases hr2 : read_byte data (ip + 1) xs' with
                | none => exact ⟨(fun res h => by cases h), (by simp), (by simp)⟩
                | some q =>
                    obtain ⟨low, xs2⟩ := q
                    simp only []
                    cases hr3 : read_byte data (ip + 1 + 1) xs2 with
                    | none => exact ⟨(fun res h => by cases h), (by simp), (by simp)⟩
                    | some w =>
                        obtain ⟨high, xs3⟩ := w
                        refine ih _ _ _ _ _ _ _ ?_ ?_
                        · exact lzssCopy_out_le expected _ _ _ _ _ _
                            (lt_of_not_le hexit)
                        · have := lzssCopy_out_gt expected
                            (low ||| ((high &&& 240) <<< 4)) ((high &&& 15) + 3) 0
                            ring rp out (by omega)
                          omega
        · simp only [if_neg hbl]
          by_cases hcb : c % 2 = 1
          · simp only [if_pos hcb]
            cases hr : read_byte data ip xs with
            | none => exact ⟨(fun res h => by cases h), (by simp), (by simp)⟩
            | some p =>
                obtain ⟨b, xs'⟩ := p
                exact ih _ _ _ _ _ _ _
                  (by simp only [List.length_append, List.length_cons,
                    List.length_nil]; omega)
                  (by simp only [List.length_append, List.length_cons,
                    List.length_nil]; omega)
          · simp only [if_neg hcb]
            cases hr : read_byte data ip xs with
            | none => exact ⟨(fun res h => by cases h), (by simp), (by simp)⟩
            | some p =>
                obtain ⟨low, xs2⟩ := p
                simp only []
                cases hr2 : read_byte data (ip + 1) xs2 with
                | none => exact ⟨(fun res h => by cases h), (by simp), (by simp)⟩
                | some w =>
                    obtain ⟨high, xs3⟩ := w
                    refine ih _ _ _ _ _ _ _ ?_ ?_
                    · exact lzssCopy_out_le expected _ _ _ _ _ _
                        (lt_of_not_le hexit)
                    · have := lzssCopy_out_gt expected
                        (low ||| ((high &&& 240) <<< 4)) ((high &&& 15) + 3) 0
                        ring rp out (by omega)
                      omega

end Rsli

namespace Rsli

def LZH_N : Nat := 4096

def LZH_F : Nat := 60

def LZH_THRESHOLD : Nat := 2

def LZH_N_CHAR : Nat := 256 - LZH_THRESHOLD + LZH_F

def LZH_T : Nat := LZH_N_CHAR * 2 - 1

def LZH_R : Nat := LZH_T - 1

def LZH_MAX_FREQ : Nat := 0x8000

/-- The decoder's fixed-length arrays (`text`, `freq`, `parent`, `son`) are
modelled as total functions `Nat → Nat` (index to value); their Rust lengths
are the constants 4096, `T + 1`, `T + N_CHAR` and `T`, and every source index
is below the respective bound, so functional update/lookup agrees with the
array semantics. -/
def LzhArr := Nat → Nat

/-- Array write `a[i] = v`. -/
def LzhArr.set (a : LzhArr) (i v : Nat) : LzhArr :=
  fun j => if j = i then v else a j

/-- `LzhDecoder` plus its `BitReader` (crates/rsli/src/lib.rs): the bit reader
fields `data`, `byte_pos`, `bit_mask` are inlined into the decoder state. -/
structure LzhDecoder where
  data : List Nat
  byte_pos : Nat
  bit_mask : Nat
  text : LzhArr
  freq : LzhArr
  parent : LzhArr
  son : LzhArr
  d_code : List Nat
  d_len : List Nat
  ring_pos : Nat

/-- `BitReader::read_bit_or_zero`: yields 0 *without failing* when the input
is exhausted (the reader state is left untouched in that case). -/
def readBitOrZero (st : LzhDecoder) : LzhDecoder × Nat :=
  match st.data.get? st.byte_pos with
  | none => (st, 0)
  | some byte =>
    let bit := if byte &&& st.bit_mask ≠ 0 then 1 else 0
    let mask := st.bit_mask / 2
    if mask = 0 then ({ st with bit_mask := 0x80, byte_pos := st.byte_pos + 1 }, bit)
    else ({ st with bit_mask := mask }, bit)

/-- `BitReader::read_bits_or_zero` (big-endian within byte). -/
def readBitsOrZero : LzhDecoder → Nat → Nat → LzhDecoder × Nat
  | st, 0, value => (st, value)
  | st, b + 1, value =>
    let r := readBitOrZero st
    readBitsOrZero r.1 b ((value <<< 1) ||| r.2)

/-- `init_tables`, innermost run of `d_code` writes: one group of `run`
copies of `group_index` per code, `group_index` wrapping as `u8`. -/
def dCodeGroup : Nat → Nat → Nat → List Nat
  | 0, _run, _gi => []
  | c + 1, run, gi => List.replicate run (gi % 256) ++ dCodeGroup c run ((gi + 1) % 256)

/-- `init_tables`, outer `d_code` loop over the six group counts, halving the
run width after each group. -/
def dCodeGroups : List Nat → Nat → Nat → List Nat
  | [], _, _ => []
  | count :: rest, run, gi =>
    dCodeGroup count run gi ++ dCodeGroups rest (run / 2) ((gi + count) % 256)

/-- `init_tables`, `d_len` groups: lengths start at 3, `saturating_add(1)`
after each group. -/
def dLenGroups : List Nat → Nat → List Nat
  | [], _ => []
  | count :: rest, len => List.replicate count len ++ dLenGroups rest (min (len + 1) 255)

/-- `start_huff`, first loop: leaves `0..N_CHAR` with frequency 1. -/
def startHuff1 : Nat → Nat → LzhArr → LzhArr → LzhArr → LzhArr × LzhArr × LzhArr
  | _i, 0, freq, son, parent => (freq, son, parent)
  | i, r + 1, freq, son, parent =>
    startHuff1 (i + 1) r (freq.set i 1) (son.set i (i + LZH_T))
      (parent.set (i + LZH_T) i)

/-- `start_huff`, second loop: internal nodes `N_CHAR..R` as pair sums
(`u16` saturating add). -/
def startHuff2 : Nat → Nat → Nat → LzhArr → LzhArr → LzhArr →
    LzhArr × LzhArr × LzhArr
  | _i, _j, 0, freq, son, parent => (freq, son, parent)
  | i, j, r + 1, freq, son, parent =>
    let f := min (freq i + freq (i + 1)) 65535
    startHuff2 (i + 2) (j + 1) r (freq.set j f) (son.set j i)
      ((parent.set i j).set (i + 1) j)

/-- `LzhDecoder::new`: zeroed arrays, `init_tables`, `start_huff`, text ring
of spaces, `ring_pos = N - F`. -/
def LzhDecoder.new (data : List Nat) : LzhDecoder :=
  let s1 := startHuff1 0 LZH_N_CHAR (fun _ => 0) (fun _ => 0) (fun _ => 0)
  let s2 := startHuff2 0 LZH_N_CHAR (LZH_R - LZH_N_CHAR + 1) s1.1 s1.2.1 s1.2.2
  { data := data
    byte_pos := 0
    bit_mask := 0x80
    text := fun _ => 0x20
    freq := s2.1.set LZH_T 65535
    parent := s2.2.2.set LZH_R 0
    son := s2.2.1
    d_code := dCodeGroups [1, 3, 8, 12, 24, 16] 32 0
    d_len := dLenGroups [32, 48, 64, 48, 48, 16] 3
    ring_pos := LZH_N - LZH_F }

/-- The `while node < T` walk of `decode_char` (fuelled: the source loop has
no bound when the `son` array is cyclic; for the states reachable from
`lzss_huffman_decompress` the tree stays shallow, so any fuel above the tree
depth reproduces the source behaviour). -/
def decodeCharWalk : Nat → LzhDecoder → Nat → Option (LzhDecoder × Nat)
  | 0, _, _ => none
  | fuel + 1, st, node =>
    if node < LZH_T then
      let r := readBitOrZero st
      decodeCharWalk fuel r.1 (r.1.son (node + r.2))
    else some (st, node)

/-- The `while swap_idx + 1 < self.freq.len() && freq > self.freq[swap_idx+1]`
scan of `update` (`freq.len()` is the constant `T + 1`); the counter argument
starts at `T + 1`, an upper bound on the number of steps, so it never
exhausts. -/
def updateSwapScan (freq : LzhArr) (f : Nat) : Nat → Nat → Nat
  | 0, swapIdx => swapIdx
  | b + 1, swapIdx =>
    if swapIdx + 1 < LZH_T + 1 ∧ freq (swapIdx + 1) < f then
      updateSwapScan freq f b (swapIdx + 1)
    else swapIdx

/-- The leaf-to-root `loop` of `update` (fuelled like the tree walk). -/
def updateLoop : Nat → Nat → LzhArr → LzhArr → LzhArr →
    Option (LzhArr × LzhArr × LzhArr)
  | 0, _, _, _, _ => none
  | fuel + 1, current, freq, son, parent =>
    let freq := freq.set current (min (freq current + 1) 65535)
    let f := freq current
    let next :=
      if current + 1 < LZH_T + 1 ∧ freq (current + 1) < f then
        let swapIdx := updateSwapScan freq f (LZH_T + 1) (current + 1)
        let fa := freq current
        let fb := freq swapIdx
        let freq := (freq.set current fb).set swapIdx fa
        let left := son current
        let right := son swapIdx
        let son := (son.set current right).set swapIdx left
        let parent := parent.set left swapIdx
        let parent := if left < LZH_T then parent.set (left + 1) swapIdx else parent
        let parent := parent.set right current
        let parent := if right < LZH_T then parent.set (right + 1) current else parent
        (swapIdx, freq, son, parent)
      else (current, freq, son, parent)
    let current := next.2.2.2 next.1
    if current = 0 then some (next.2.1, next.2.2.1, next.2.2.2)
    else updateLoop fuel current next.2.1 next.2.2.1 next.2.2.2

/-- `reconstruct`, first loop: collect leaf nodes, halving frequencies. -/
def reconstructCollect : Nat → Nat → Nat → LzhArr → LzhArr →
    Nat × LzhArr × LzhArr
  | _i, 0, j, freq, son => (j, freq, son)
  | i, r + 1, j, freq, son =>
    if LZH_T ≤ son i then
      reconstructCollect (i + 1) r (j + 1)
        (freq.set j (min (freq i + 1) 65535 / 2)) (son.set j (son i))
    else reconstructCollect (i + 1) r j freq son

/-- `reconstruct`, insertion-point scan (`while insert_at > 0 && sum < …`). -/
def reconstructInsertScan (freq : LzhArr) (sum : Nat) : Nat → Nat
  | 0 => 0
  | ia + 1 => if sum < freq ia then reconstructInsertScan freq sum ia else ia + 1

/-- `reconstruct`, the shift over `(insert_at..current).rev()`. -/
def reconstructShift : Nat → Nat → LzhArr → LzhArr → LzhArr × LzhArr
  | _mi, 0, freq, son => (freq, son)
  | mi, r + 1, freq, son =>
    reconstructShift (mi - 1) r (freq.set (mi + 1) (freq mi))
      (son.set (mi + 1) (son mi))

/-- `reconstruct`, second loop: rebuild internal nodes in frequency order. -/
def reconstructBuild : Nat → Nat → Nat → LzhArr → LzhArr → LzhArr × LzhArr
  | _i, _cur, 0, freq, son => (freq, son)
  | i, cur, r + 1, freq, son =>
    let sum := min (freq i + freq (i + 1)) 65535
    let freq := freq.set cur sum
    let insertAt := reconstructInsertScan freq sum cur
    let shifted := reconstructShift (cur - 1) (cur - insertAt) freq son
    reconstructBuild (i + 2) (cur + 1) r (shifted.1.set insertAt sum)
      (shifted.2.set insertAt i)

/-- `reconstruct`, final loop: rebuild the parent array from `son`. -/
def reconstructParents : Nat → Nat → LzhArr → LzhArr → LzhArr
  | _idx, 0, _son, parent => parent
  | idx, r + 1, son, parent =>
    let node := son idx
    let parent := parent.set node idx
    let parent := if node < LZH_T then parent.set (node + 1) idx else parent
    reconstructParents (idx + 1) r son parent

/-- `LzhDecoder::reconstruct`. -/
def reconstruct (st : LzhDecoder) : LzhDecoder :=
  let col := reconstructCollect 0 LZH_T 0 st.freq st.son
  let built := reconstructBuild 0 LZH_N_CHAR (LZH_T - LZH_N_CHAR) col.2.1 col.2.2
  let parent := reconstructParents 0 LZH_T built.2 st.parent
  { st with freq := built.1.set LZH_T 65535
            son := built.2
            parent := parent.set LZH_R 0 }

/-- `LzhDecoder::update`. -/
def update (fuel : Nat) (c : Nat) (st : LzhDecoder) : Option LzhDecoder :=
  let st := if st.freq LZH_R = LZH_MAX_FREQ then reconstruct st else st
  match updateLoop fuel (st.parent (c + LZH_T)) st.freq st.son st.parent with
  | none => none
  | some r => some { st with freq := r.1, son := r.2.1, parent := r.2.2 }

/-- `LzhDecoder::decode_char`. -/
def decode_char (walkFuel : Nat) (st : LzhDecoder) : Option (LzhDecoder × Nat) :=
  match decodeCharWalk walkFuel st (st.son LZH_R) with
  | none => none
  | some (st, node) =>
    let c := node - LZH_T
    match update walkFuel c st with
    | none => none
    | some st => some (st, c)

/-- The `while j > 0` distance-bit loop of `decode_position`. -/
def decodePositionBits : LzhDecoder → Nat → Nat → LzhDecoder × Nat
  | st, 0, c => (st, c)
  | st, j + 1, c =>
    let r := readBitOrZero st
    decodePositionBits r.1 j (c ||| (r.2 <<< j))

/-- `LzhDecoder::decode_position`. -/
def decode_position (st : LzhDecoder) : LzhDecoder × Nat :=
  let r := readBitsOrZero st 8 0
  let i := r.2
  let c := (r.1.d_code.getD i 0) <<< 6
  let j := (r.1.d_len.getD i 0) - 2
  let r2 := decodePositionBits r.1 j c
  (r2.1, r2.2 ||| (i &&& 0x3F))

/-- The inner `while length > 0 && out.len() < expected_size` copy of
`LzhDecoder::decode`. -/
def lzhCopy (expected : Nat) : Nat → Nat → LzhDecoder → List Nat →
    LzhDecoder × List Nat
  | 0, _, st, out => (st, out)
  | l + 1, offset, st, out =>
    if out.length < expected then
      let byte := st.text offset
      let st' := { st with text := st.text.set st.ring_pos byte
                           ring_pos := (st.ring_pos + 1) % LZH_N }
      lzhCopy expected l ((offset + 1) % LZH_N) st' (out ++ [byte])
    else (st, out)

/-- The main `while out.len() < expected_size` loop of `LzhDecoder::decode`,
including the trailing length check. `ring_pos.wrapping_sub(offset)
.wrapping_sub(1) & (N-1)` is written `(ring_pos + N - offset - 1) % N`, equal
for every distance the decoder produces (`offset < N`). The outer fuel equals
`expected` at the wrapper and never exhausts (each iteration appends at least
one byte); `walkFuel` bounds the Huffman walks. -/
def lzhDecodeLoop (expected walkFuel : Nat) :
    Nat → LzhDecoder → List Nat → Except Error (List Nat)
  | fuel, st, out =>
    if expected ≤ out.length then
      if out.length ≠ expected then .error (.DecompressionFailed "lzss-huffman")
      else .ok out
    else
      match fuel with
      | 0 => .error .LoopFuelExhausted
      | fuel + 1 =>
        match decode_char walkFuel st with
        | none => .error .LoopFuelExhausted
        | some (st, c) =>
          if c < 256 then
            let byte := c % 256
            let st' := { st with text := st.text.set st.ring_pos byte
                                 ring_pos := (st.ring_pos + 1) % LZH_N }
            lzhDecodeLoop expected walkFuel fuel st' (out ++ [byte])
          else
            let p := decode_position st
            let offset := (p.1.ring_pos + LZH_N - p.2 - 1) % LZH_N
            let length := c - 253
            let r := lzhCopy expected length offset p.1 out
            lzhDecodeLoop expected walkFuel fuel r.1 r.2

/-- `lzss_huffman_decompress` in crates/rsli/src/lib.rs: with an XOR key the
whole buffer is pre-decrypted first (the lib.rs fallback path), then the LZH
decoder runs. `walkFuel` bounds the unbounded Huffman-tree walks of the
embedding. -/
def lzss_huffman_decompress (data : List Nat) (expected_size : Nat)
    (xor_key : Option Nat) (walkFuel : Nat) : Except Error (List Nat) :=
  match xor_key with
  | some key =>
    lzhDecodeLoop expected_size walkFuel expected_size
      (LzhDecoder.new (xor_stream data key)) []
  | none =>
    lzhDecodeLoop expected_size walkFuel expected_size (LzhDecoder.new data) []

end Rsli

namespace Rsli

/-- The LZH back-reference copy never pushes the output past `expected`. -/
theorem lzhCopy_out_le (expected : Nat) :
    ∀ (l offset : Nat) (st : LzhDecoder) (out : List Nat),
      out.length ≤ expected → (lzhCopy expected l offset st out).2.length ≤ expected := by
  intro l
  induction l with
  | zero => intro offset st out h; exact h
  | succ l ih =>
      intro offset st out h
      simp only [lzhCopy]
      split
      · next hlt =>
          exact ih _ _ _ (by simp only [List.length_append, List.length_cons,
            List.length_nil]; omega)
      · exact h

/-- Every successful run of the LZH decode loop returns exactly `expected`
bytes, and the post-loop length-mismatch error branch is unreachable. -/
theorem lzhDecodeLoop_exact_length (expected walkFuel : Nat) :
    ∀ (fuel : Nat) (st : LzhDecoder) (out : List Nat),
      out.length ≤ expected →
      (∀ res, lzhDecodeLoop expected walkFuel fuel st out = .ok res →
          res.length = expected) ∧
        lzhDecodeLoop expected walkFuel fuel st out ≠
          .error (.DecompressionFailed "lzss-huffman") := by
  intro fuel
  induction fuel with
  | zero =>
      intro st out h1
      by_cases hexit : expected ≤ out.length
      · have heq : out.length = expected := le_antisymm h1 hexit
        have hres : lzhDecodeLoop expected walkFuel 0 st out = .ok out := by
          simp only [lzhDecodeLoop]
          rw [if_pos hexit, if_neg (by omega)]
        rw [hres]
        exact ⟨(fun res h => by cases h; exact heq), (by simp)⟩
      · have hres : lzhDecodeLoop expected walkFuel 0 st out =
            .error .LoopFuelExhausted := by
          simp only [lzhDecodeLoop]
          rw [if_neg hexit]
        rw [hres]
        exact ⟨(fun res h => by cases h), (by simp)⟩
  | succ fuel ih =>
      intro st out h1
      by_cases hexit : expected ≤ out.length
      · have heq : out.length = expected := le_antisymm h1 hexit
        have hres : lzhDecodeLoop expected walkFuel (fuel + 1) st out = .ok out := by
          simp only [lzhDecodeLoop]
          rw [if_pos hexit, if_neg (by omega)]
        rw [hres]
        exact ⟨(fun res h => by cases h; exact heq), (by simp)⟩
      · simp only [lzhDecodeLoop, if_neg hexit]
        cases hd : decode_char walkFuel st with
        | none => exact ⟨(fun res h => by cases h), (by simp)⟩
        | some p =>
            obtain ⟨st', c⟩ := p
            simp only []
            by_cases hc : c < 256
            · simp only [if_pos hc]
              exact ih _ _ (by simp only [List.length_append, List.length_cons,
                List.length_nil]; omega)
            · simp only [if_neg hc]
              exact ih _ _ (lzhCopy_out_le expected _ _ _ _ (le_of_lt (lt_of_not_le hexit)))

end Rsli

/-- C5 (code evaluation at the failing input): on an empty input buffer — a
bit stream exhausted before the declared uncompressed length (1 byte) has been
produced — the LZH decoder *succeeds*: the bit reader pads the exhausted
stream with zero bits and the all-zeros Huffman path decodes to literal 0x74,
so the result is `ok [0x74]`, not the unexpected-EOF codec failure that the
claim (and the crate's own test `rsli_lzss_huffman_reports_unexpected_eof`)
requires. -/
theorem c5_lzh_succeeds_on_exhausted_stream :
    Rsli.lzss_huffman_decompress [] 1 none 1000 = .ok [116] := rfl

/-- C10: in both the LZSS and the LZSS+Huffman decoders an over-long
back-reference is truncated at the declared size: every successful decode
returns exactly `expected` bytes, and the trailing output-length-mismatch
error branch after each main loop is unreachable (the LZSS loop can fail only
with an unexpected-EOF error; the fuel artifact of the embedding is also shown
unreachable for the LZSS loop). -/
theorem c10_backref_truncation_exact_output (data : List Nat)
    (expected : Nat) (key : Option Nat) (walkFuel : Nat) :
    (∀ out, Rsli.lzss_decompress_simple data expected key = .ok out →
        out.length = expected) ∧
      Rsli.lzss_decompress_simple data expected key ≠
        .error (.DecompressionFailed "lzss-simple") ∧
      Rsli.lzss_decompress_simple data expected key ≠
        .error .LoopFuelExhausted ∧
      (∀ out, Rsli.lzss_huffman_decompress data expected key walkFuel = .ok out →
          out.length = expected) ∧
      Rsli.lzss_huffman_decompress data expected key walkFuel ≠
        .error (.DecompressionFailed "lzss-huffman") := by
  have hs := Rsli.lzssLoop_exact_length data expected expected
    (List.replicate 4096 0x20) 0xFEE 0 (key.map Rsli.XorState.new) 0 0 []
    (by simp) (by simp)
  have hl : (∀ res, Rsli.lzss_huffman_decompress data expected key walkFuel = .ok res →
      res.length = expected) ∧
      Rsli.lzss_huffman_decompress data expected key walkFuel ≠
        .error (.DecompressionFailed "lzss-huffman") := by
    cases key with
    | none =>
        exact Rsli.lzhDecodeLoop_exact_length expected walkFuel expected
          (Rsli.LzhDecoder.new data) [] (by simp)
    | some k =>
        exact Rsli.lzhDecodeLoop_exact_length expected walkFuel expected
          (Rsli.LzhDecoder.new (Rsli.xor_stream data k)) [] (by simp)
  exact ⟨hs.1, hs.2.1, hs.2.2, hl.1, hl.2⟩

/-- Witness for C10 at a concrete input: a one-literal LZSS stream. -/
theorem c10_backref_truncation_witness :
    Rsli.lzss_decompress_simple [1, 65] 1 none = .ok [65] ∧
      ([65] : List Nat).length = 1 :=
  ⟨rfl, (c10_backref_truncation_exact_output [1, 65] 1 none 0).1 [65] rfl⟩

namespace Rsli

/-- Little-endian `u32` read (callers have bounds-checked, so the default 0 of
`getD` is never hit in-range). -/
def read_u32_le (bytes : List Nat) (off : Nat) : Nat :=
  bytes.getD off 0 + 256 * bytes.getD (off + 1) 0 + 65536 * bytes.getD (off + 2) 0 +
    16777216 * bytes.getD (off + 3) 0

/-- `i16::from_le_bytes`. -/
def i16_from_le (b0 b1 : Nat) : Int :=
  let v := b0 + 256 * b1
  if v < 32768 then (v : Int) else (v : Int) - 65536

/-- `PackMethod` in crates/rsli/src/lib.rs. -/
inductive PackMethod where
  | None
  | XorOnly
  | Lzss
  | XorLzss
  | LzssHuffman
  | XorLzssHuffman
  | Deflate
  | Unknown (raw : Nat)
deriving Repr, DecidableEq

/-- `parse_method`. -/
def parse_method (raw : Nat) : PackMethod :=
  if raw = 0x000 then .None
  else if raw = 0x020 then .XorOnly
  else if raw = 0x040 then .Lzss
  else if raw = 0x060 then .XorLzss
  else if raw = 0x080 then .LzssHuffman
  else if raw = 0x0A0 then .XorLzssHuffman
  else if raw = 0x100 then .Deflate
  else .Unknown raw

/-- `EntryMeta` (name as the decoded character codes). -/
structure EntryMeta where
  name : List Nat
  flags : Int
  method : PackMethod
  data_offset : Nat
  packed_size : Nat
  unpacked_size : Nat
deriving Repr, DecidableEq

/-- `EntryRecord` (the crate-private parse result; test-only fields omitted). -/
structure EntryRecord where
  meta : EntryMeta
  name_raw : List Nat
  sort_to_original : Int
  key16 : Nat
  packed_size_declared : Nat
  packed_size_available : Nat
  effective_offset : Nat
deriving Repr, DecidableEq

/-- Placeholder record used as the (never hit) `getD` default. -/
def emptyEntry : EntryRecord :=
  { meta := { name := [], flags := 0, method := .None, data_offset := 0,
              packed_size := 0, unpacked_size := 0 }
    name_raw := [], sort_to_original := 0, key16 := 0, packed_size_declared := 0
    packed_size_available := 0, effective_offset := 0 }

/-- `Library`: the backing bytes and the parsed directory. -/
structure Library where
  bytes : List Nat
  entries : List EntryRecord
deriving Repr, DecidableEq

/-- `OpenOptions`. -/
structure OpenOptions where
  allow_ao_trailer : Bool
  allow_deflate_eof_plus_one : Bool
deriving Repr, DecidableEq

/-- The default options: both quirks allowed. -/
def OpenOptions.default : OpenOptions :=
  { allow_ao_trailer := true, allow_deflate_eof_plus_one := true }

/-- `c_name_bytes`: the name field up to the first NUL (whole field if none). -/
def c_name_bytes (raw : List Nat) : List Nat :=
  raw.takeWhile (fun b => b ≠ 0)

/-- `decode_name` in crates/rsli/src/lib.rs: `char::from(byte)` for every
byte, i.e. each byte becomes the Unicode code point of the same value
(the Latin-1 interpretation). -/
def decode_name (name : List Nat) : List Nat :=
  name.map (fun b => b)

/-- `cmp_c_string`: byte-wise lexicographic comparison, shorter-is-smaller at
a common prefix. -/
def cmp_c_string : List Nat → List Nat → Ordering
  | [], [] => .eq
  | [], _ :: _ => .lt
  | _ :: _, [] => .gt
  | a :: as, b :: bs =>
    if a < b then .lt
    else if b < a then .gt
    else cmp_c_string as bs

/-- `parse_ao_trailer`: optional 6-byte `AO` + `u32` overlay at the tail. -/
def parse_ao_trailer (bytes : List Nat) (allow : Bool) :
    Except Error (Nat × Option (List Nat)) :=
  if ¬ allow ∨ bytes.length < 6 then .ok (0, none)
  else if (bytes.drop (bytes.length - 6)).take 2 ≠ [65, 79] then .ok (0, none)
  else
    let trailer := bytes.drop (bytes.length - 6)
    let overlay := read_u32_le trailer 2
    if bytes.length < overlay then
      .error (.MediaOverlayOutOfBounds overlay bytes.length)
    else .ok (overlay, some trailer)

/-- The per-entry body of `parse_library`'s directory loop (lib.rs lines
406-489). The `u64`/`usize` checked additions cannot overflow for `u32`-range
fields on the 64-bit target and are written as plain `Nat` additions; the one
reachable checked operation, `packed_size_available.checked_sub(1)` in the
Deflate-EOF+1 branch, is mirrored explicitly. -/
def parse_entry (fileLen overlay : Nat) (opts : OpenOptions) (idx : Nat)
    (row : List Nat) : Except Error EntryRecord :=
  let name_raw := row.take 12
  let flags_signed := i16_from_le (row.getD 16 0) (row.getD 17 0)
  let sort_to_original := i16_from_le (row.getD 18 0) (row.getD 19 0)
  let unpacked_size := read_u32_le row 20
  let data_offset_raw := read_u32_le row 24
  let packed_size_declared := read_u32_le row 28
  let method_raw := (row.getD 16 0 + 256 * row.getD 17 0) &&& 0x1E0
  let method := parse_method method_raw
  let effective_offset := data_offset_raw + overlay
  let endPos := effective_offset + packed_size_declared
  let availE : Except Error Nat :=
    if fileLen < endPos then
      if method_raw = 0x100 ∧ endPos = fileLen + 1 then
        if opts.allow_deflate_eof_plus_one then
          if packed_size_declared = 0 then .error .IntegerOverflow
          else .ok (packed_size_declared - 1)
        else .error (.DeflateEofPlusOneQuirkRejected idx)
      else .error (.PackedSizePastEof idx effective_offset packed_size_declared fileLen)
    else .ok packed_size_declared
  match availE with
  | .error e => .error e
  | .ok packed_size_available =>
    if fileLen < effective_offset + packed_size_available then
      .error (.EntryDataOutOfBounds idx effective_offset packed_size_declared fileLen)
    else
      .ok { meta := { name := decode_name (c_name_bytes name_raw)
                      flags := flags_signed
                      method := method
                      data_offset := effective_offset
                      packed_size := packed_size_declared
                      unpacked_size := unpacked_size }
            name_raw := name_raw
            sort_to_original := sort_to_original
            key16 := row.getD 18 0 + 256 * row.getD 19 0
            packed_size_declared := packed_size_declared
            packed_size_available := packed_size_available
            effective_offset := effective_offset }

/-- The directory loop of `parse_library`. -/
def parse_entries (fileLen overlay : Nat) (opts : OpenOptions)
    (table : List Nat) : Nat → Nat → Except Error (List EntryRecord)
  | _idx, 0 => .ok []
  | idx, r + 1 =>
    match parse_entry fileLen overlay opts idx ((table.drop (idx * 32)).take 32) with
    | .error e => .error e
    | .ok entry =>
      match parse_entries fileLen overlay opts table (idx + 1) r with
      | .error e => .error e
      | .ok rest => .ok (entry :: rest)

/-- The presorted-flag validation of lib.rs's `parse_library` (lines 491-500):
each `sort_to_original` is required to be in `0..count` — nothing more. -/
def validate_presorted (count : Nat) : List EntryRecord → Except Error Unit
  | [] => .ok ()
  | e :: rest =>
    if e.sort_to_original < 0 ∨ (count : Int) ≤ e.sort_to_original then
      .error (.CorruptEntryTable "sort_to_original is not a valid permutation index")
    else validate_presorted count rest

/-- Stable insertion sort, modelling Rust's stable `sort_by` (equal elements
keep their original order; any stable sort computes the same list). -/
def insort {α : Type} (le : α → α → Bool) : α → List α → List α
  | x, [] => [x]
  | x, y :: ys => if le x y then x :: y :: ys else y :: insort le x ys

/-- See `insort`. -/
def stableSort {α : Type} (le : α → α → Bool) : List α → List α
  | [] => []
  | x :: xs => insort le x (stableSort le xs)

/-- The unsorted-branch rewrite of `sort_to_original` (lib.rs lines 501-514):
each entry at position `idx` receives `sorted[idx]` as its sort key
(`i16::try_from` fails above 32767, mirrored). -/
def apply_sorted (sorted : List Nat) : Nat → List EntryRecord →
    Except Error (List EntryRecord)
  | _, [] => .ok []
  | idx, e :: rest =>
    let v := sorted.getD idx 0
    if 32767 < v then .error .IntegerOverflow
    else
      match apply_sorted sorted (idx + 1) rest with
      | .error er => .error er
      | .ok rest' =>
        .ok ({ e with sort_to_original := (v : Int), key16 := v } :: rest')

/-- `parse_library` in crates/rsli/src/lib.rs (the module the crate compiles;
the orphaned parse.rs file is not declared by lib.rs). -/
def parse_library (bytes : List Nat) (opts : OpenOptions) :
    Except Error Library :=
  if bytes.length < 32 then .error (.EntryTableOutOfBounds 32 0 bytes.length)
  else if bytes.take 2 ≠ [78, 76] then .error (.InvalidMagic (bytes.take 2))
  else if bytes.getD 3 0 ≠ 1 then .error (.UnsupportedVersion (bytes.getD 3 0))
  else
    let entry_count := i16_from_le (bytes.getD 4 0) (bytes.getD 5 0)
    if entry_count < 0 then .error (.InvalidEntryCount entry_count)
    else
      let count := entry_count.toNat
      if 4294967295 < count then .error (.TooManyEntries count)
      else
        let xor_seed := read_u32_le bytes 20
        let table_len := count * 32
        let table_end := 32 + table_len
        if bytes.length < table_end then
          .error (.EntryTableOutOfBounds 32 table_len bytes.length)
        else
          let table_enc := (bytes.drop 32).take table_len
          let table_plain := xor_stream table_enc (xor_seed % 65536)
          if table_plain.length ≠ table_len then .error .EntryTableDecryptFailed
          else
            match parse_ao_trailer bytes opts.allow_ao_trailer with
            | .error e => .error e
            | .ok (overlay, _trailer) =>
              match parse_entries bytes.length overlay opts table_plain 0 count with
              | .error e => .error e
              | .ok entries =>
                let presorted_flag := bytes.getD 14 0 + 256 * bytes.getD 15 0
                if presorted_flag = 0xABBA then
                  match validate_presorted count entries with
                  | .error e => .error e
                  | .ok _ => .ok { bytes := bytes, entries := entries }
                else
                  let names := entries.map (fun e => e.name_raw)
                  let sorted := stableSort (fun a b =>
                    cmp_c_string (c_name_bytes (names.getD a []))
                      (c_name_bytes (names.getD b [])) ≠ .gt) (List.range count)
                  match apply_sorted sorted 0 entries with
                  | .error e => .error e
                  | .ok entries' => .ok { bytes := bytes, entries := entries' }

/-- `to_ascii_uppercase` on a byte. -/
def to_ascii_uppercase (b : Nat) : Nat :=
  if 97 ≤ b ∧ b ≤ 122 then b - 32 else b

/-- The binary-search loop of `Library::find_impl`. A `break` (negative or
out-of-range `sort_to_original`) and a normal exit both yield `none` (the
caller then runs the linear fallback); `some idx` is the `Ordering::Equal`
return. The fuel starts at `entries.length + 1`, an upper bound on the
iteration count (`high - low` shrinks every iteration). -/
def findLoop (entries : List EntryRecord) (query : List Nat) :
    Nat → Nat → Nat → Option Nat
  | 0, _, _ => none
  | fuel + 1, low, high =>
    if low < high then
      let mid := low + (high - low) / 2
      let idx := (entries.getD mid emptyEntry).sort_to_original
      if idx < 0 then none
      else
        let idxN := idx.toNat
        if entries.length ≤ idxN then none
        else
          match cmp_c_string query (c_name_bytes ((entries.getD idxN emptyEntry).name_raw)) with
          | .lt => findLoop entries query fuel low mid
          | .gt => findLoop entries query fuel (mid + 1) high
          | .eq => some idxN
    else none

/-- The linear fallback scan of `Library::find_impl`. -/
def linear_fallback (query : List Nat) : Nat → List EntryRecord → Option Nat
  | _, [] => none
  | idx, e :: rest =>
    if cmp_c_string query (c_name_bytes e.name_raw) = .eq then some idx
    else linear_fallback query (idx + 1) rest

/-- `Library::find_impl`. -/
def find_impl (entries : List EntryRecord) (query_bytes : List Nat) : Option Nat :=
  match findLoop entries query_bytes (entries.length + 1) 0 entries.length with
  | some idx => some idx
  | none => linear_fallback query_bytes 0 entries

/-- `Library::find`, restricted to ASCII queries (for an ASCII query both the
stack fast path and the heap slow path upper-case the query byte-wise and
compare the raw bytes). The query is given as its character codes. -/
def find (lib : Library) (name : List Nat) : Option Nat :=
  if lib.entries.isEmpty then none
  else find_impl lib.entries (name.map to_ascii_uppercase)

end Rsli

namespace Rsli

/-- Presorted archive, two entries both named `A`, both with
`sort_to_original = 0` (all values in range, but duplicated): header `NL`,
version 1, count 2, presorted flag 0xABBA, seed 0 (a zero key makes the XOR
stream the identity), two all-zero rows apart from the name byte. -/
def c1_dup_presorted_bytes : List Nat :=
  [78, 76, 0, 1, 2, 0] ++ List.replicate 8 0 ++ [0xBA, 0xAB] ++
    List.replicate 16 0 ++ ([65] ++ List.replicate 31 0) ++
    ([65] ++ List.replicate 31 0)

/-- Unsorted archive (presorted flag 0), two entries both named `A`. -/
def c7_dup_names_bytes : List Nat :=
  [78, 76, 0, 1, 2, 0] ++ List.replicate 8 0 ++ [0, 0] ++
    List.replicate 16 0 ++ ([65] ++ List.replicate 31 0) ++
    ([65] ++ List.replicate 31 0)

/-- Directory row declaring method 0x100 (Deflate), `data_offset_raw = 65`,
`packed_size = 0`, inside a 64-byte archive: `offset + packed = 65 =
file_size + 1`. -/
def c4_zero_packed_row : List Nat :=
  [68] ++ List.replicate 11 0 ++ List.replicate 4 0 ++ [0, 1] ++ [0, 0] ++
    List.replicate 4 0 ++ [65, 0, 0, 0] ++ [0, 0, 0, 0]

/-- Single-entry presorted archive holding `c4_zero_packed_row`. -/
def c4_zero_packed_bytes : List Nat :=
  [78, 76, 0, 1, 1, 0] ++ List.replicate 8 0 ++ [0xBA, 0xAB] ++
    List.replicate 16 0 ++ c4_zero_packed_row

/-- Directory row declaring method 0x100, `data_offset_raw = 64`,
`packed_size = 1`, inside a 64-byte archive: `offset + packed = 65 =
file_size + 1` with a positive packed size. -/
def c4_eof_plus_one_row : List Nat :=
  [68] ++ List.replicate 11 0 ++ List.replicate 4 0 ++ [0, 1] ++ [0, 0] ++
    List.replicate 4 0 ++ [64, 0, 0, 0] ++ [1, 0, 0, 0]

/-- Single-entry presorted archive holding `c4_eof_plus_one_row`. -/
def c4_eof_plus_one_bytes : List Nat :=
  [78, 76, 0, 1, 1, 0] ++ List.replicate 8 0 ++ [0xBA, 0xAB] ++
    List.replicate 16 0 ++ c4_eof_plus_one_row

end Rsli

/-- C1 (code evaluation at the failing input): a presorted archive whose two
`sort_to_original` values are both 0 — every value in range but duplicated,
hence not a permutation — is *accepted* by open: the compiled lib.rs only
range-checks each value. The claim (and the crate's own test
`rsli_presorted_flag_requires_permutation`) requires a corrupt-entry-table
rejection. -/
theorem c1_duplicate_sort_accepted :
    (Rsli.parse_library Rsli.c1_dup_presorted_bytes
        Rsli.OpenOptions.default).toOption.map
      (fun lib => lib.entries.map (fun e => e.sort_to_original)) =
      some [0, 0] := rfl

/-- C7 (counterexample): a successfully parsed archive with two entries both
named `A`; `entries[0].name` is `A` (code 65) but `find "A"` returns entry id
1, not 0 — the claim's `find(entries[i].name) = Some(EntryId(i))` fails at
`i = 0`. -/
theorem c7_find_duplicate_names_counterexample :
    (Rsli.parse_library Rsli.c7_dup_names_bytes
        Rsli.OpenOptions.default).toOption.map
      (fun lib => (lib.entries.map (fun e => e.meta.name), Rsli.find lib [65])) =
      some ([[65], [65]], some 1) := rfl

/-- C4 (counterexample): an archive whose sole entry has method bits 0x100 and
`data_offset + packed_size = file_size + 1` but `packed_size = 0`. With the
quirk enabled open *fails* with an integer-overflow error
(`packed_size_available.checked_sub(1)` underflows), although the claim says
open succeeds whenever the quirk is enabled; with the quirk disabled the entry
is classified as Deflate-EOF+1 (showing the claim's precondition holds). -/
theorem c4_zero_packed_counterexample :
    Rsli.parse_library Rsli.c4_zero_packed_bytes Rsli.OpenOptions.default =
        .error .IntegerOverflow ∧
      Rsli.parse_library Rsli.c4_zero_packed_bytes
          { allow_ao_trailer := true, allow_deflate_eof_plus_one := false } =
        .error (.DeflateEofPlusOneQuirkRejected 0) :=
  ⟨rfl, rfl⟩

/-- C4 (amended: the claim additionally needs `packed_size ≥ 1`; with
`packed_size = 0` the `checked_sub(1)` fails even with the quirk enabled).
For any directory row with method bits 0x100 and effective
`data_offset + packed_size = file_size + 1` and `packed_size ≥ 1`: with the
quirk enabled the entry parses and its decode slice length
(`packed_size_available`) is `packed_size − 1`; with the quirk disabled
parsing fails with the Deflate-EOF+1-rejected error carrying the entry id.
Any other past-end declaration (`end > file_size` and not exactly the
method-0x100 end-plus-one case) fails with `PackedSizePastEof`. -/
theorem c4_deflate_eof_plus_one (fileLen overlay idx : Nat) (row : List Nat)
    (ao : Bool)
    (hm : (row.getD 16 0 + 256 * row.getD 17 0) &&& 0x1E0 = 0x100)
    (hend : Rsli.read_u32_le row 24 + overlay + Rsli.read_u32_le row 28 =
      fileLen + 1)
    (hp : 1 ≤ Rsli.read_u32_le row 28) :
    (∃ rec, Rsli.parse_entry fileLen overlay ⟨ao, true⟩ idx row = .ok rec ∧
        rec.packed_size_available = Rsli.read_u32_le row 28 - 1 ∧
        rec.packed_size_declared = Rsli.read_u32_le row 28) ∧
      Rsli.parse_entry fileLen overlay ⟨ao, false⟩ idx row =
        .error (.DeflateEofPlusOneQuirkRejected idx) ∧
      ∀ (fileLen' overlay' idx' : Nat) (row' : List Nat) (b1 b2 : Bool),
        fileLen' < Rsli.read_u32_le row' 24 + overlay' +
          Rsli.read_u32_le row' 28 →
        ¬((row'.getD 16 0 + 256 * row'.getD 17 0) &&& 0x1E0 = 0x100 ∧
          Rsli.read_u32_le row' 24 + overlay' + Rsli.read_u32_le row' 28 =
            fileLen' + 1) →
        Rsli.parse_entry fileLen' overlay' ⟨b1, b2⟩ idx' row' =
          .error (.PackedSizePastEof idx'
            (Rsli.read_u32_le row' 24 + overlay')
            (Rsli.read_u32_le row' 28) fileLen') := by
  refine ⟨?_, ?_, ?_⟩
  · simp only [Rsli.parse_entry]
    rw [if_pos (by omega), if_pos ⟨hm, by omega⟩, if_pos trivial, if_neg (by omega)]
    have hvail : ¬ fileLen < Rsli.read_u32_le row 24 + overlay +
        (Rsli.read_u32_le row 28 - 1) := by omega
    simp only [if_neg hvail]
    exact ⟨_, rfl, rfl, rfl⟩
  · simp only [Rsli.parse_entry]
    rw [if_pos (by omega), if_pos ⟨hm, by omega⟩, if_neg (by simp)]
  · intro fileLen' overlay' idx' row' b1 b2 hover hnot
    simp only [Rsli.parse_entry]
    rw [if_pos (by omega), if_neg hnot]

/-- Witness for C4 at a concrete archive: the EOF+1 entry with
`packed_size = 1` is rejected with its entry id when the quirk is disabled
(via the amended theorem), and on the surrounding 64-byte archive open
succeeds with the quirk enabled and fails with the same error when it is
disabled. -/
theorem c4_deflate_eof_plus_one_witness :
    Rsli.parse_entry 64 0 ⟨true, false⟩ 0 Rsli.c4_eof_plus_one_row =
        .error (.DeflateEofPlusOneQuirkRejected 0) ∧
      (Rsli.parse_library Rsli.c4_eof_plus_one_bytes
          Rsli.OpenOptions.default).isOk = true ∧
      Rsli.parse_library Rsli.c4_eof_plus_one_bytes
          { allow_ao_trailer := true, allow_deflate_eof_plus_one := false } =
        .error (.DeflateEofPlusOneQuirkRejected 0) :=
  ⟨(c4_deflate_eof_plus_one 64 0 0 Rsli.c4_eof_plus_one_row true (by decide)
      (by decide) (by decide)).2.1, rfl, rfl⟩

namespace Rsli

/-- `cmp_c_string` returns `eq` exactly on equal byte strings. -/
theorem cmp_c_string_eq_iff : ∀ (a b : List Nat), cmp_c_string a b = .eq ↔ a = b := by
  intro a
  induction a with
  | nil =>
      intro b
      cases b <;> simp [cmp_c_string]
  | cons x as ih =>
      intro b
      cases b with
      | nil => simp [cmp_c_string]
      | cons y bs =>
          simp only [cmp_c_string, List.cons.injEq]
          by_cases h1 : x < y
          · rw [if_pos h1]
            exact ⟨(fun h => nomatch h), (fun h => absurd h.1 (by omega))⟩
          · rw [if_neg h1]
            by_cases h2 : y < x
            · rw [if_pos h2]
              exact ⟨(fun h => nomatch h), (fun h => absurd h.1 (by omega))⟩
            · rw [if_neg h2]
              have hxy : x = y := by omega
              rw [ih bs]
              exact ⟨(fun h => ⟨hxy, h⟩), (fun h => h.2)⟩

/-- The binary search returns an index only on an exact (upper-cased) name
match, and that index is in range. -/
theorem findLoop_some (entries : List EntryRecord) (query : List Nat) :
    ∀ (fuel low high j : Nat),
      findLoop entries query fuel low high = some j →
      j < entries.length ∧
        cmp_c_string query
          (c_name_bytes ((entries.getD j emptyEntry).name_raw)) = .eq := by
  intro fuel
  induction fuel with
  | zero => intro low high j h; cases h
  | succ fuel ih =>
      intro low high j h
      simp only [findLoop] at h
      split at h
      · split at h
        · cases h
        · split at h
          · cases h
          · next hrange =>
              split at h
              · exact ih _ _ _ h
              · exact ih _ _ _ h
              · next hcmp =>
                  cases h
                  exact ⟨lt_of_not_le hrange, hcmp⟩
      · cases h
  
/-- The linear fallback returns the offset of a matching name. -/
theorem linear_fallback_some (query : List Nat) :
    ∀ (es : List EntryRecord) (start j : Nat),
      linear_fallback query start es = some j →
      ∃ off, off < es.length ∧ j = start + off ∧
        cmp_c_string query
          (c_name_bytes ((es.getD off emptyEntry).name_raw)) = .eq := by
  intro es
  induction es with
  | nil => intro start j h; cases h
  | cons e rest ih =>
      intro start j h
      simp only [linear_fallback] at h
      split at h
      · next hcmp =>
          cases h
          exact ⟨0, by simp, by omega, hcmp⟩
      · obtain ⟨off, h1, h2, h3⟩ := ih (start + 1) j h
        refine ⟨off + 1, by simp only [List.length_cons]; omega, by omega, ?_⟩
        simpa [List.getD_cons_succ] using h3

/-- If the fallback fails, no entry name matches. -/
theorem linear_fallback_none (query : List Nat) :
    ∀ (es : List EntryRecord) (start : Nat),
      linear_fallback query start es = none →
      ∀ off, off < es.length →
        cmp_c_string query
          (c_name_bytes ((es.getD off emptyEntry).name_raw)) ≠ .eq := by
  intro es
  induction es with
  | nil => intro start h off hoff; simp at hoff
  | cons e rest ih =>
      intro start h off hoff
      simp only [linear_fallback] at h
      split at h
      · cases h
      · next hcmp =>
          cases off with
          | zero => simpa using hcmp
          | succ off =>
              have := ih (start + 1) h off (by simp only [List.length_cons] at hoff; omega)
              simpa [List.getD_cons_succ] using this

end Rsli

/-- C7 (amended: the claim holds once the parsed entry names are pairwise
distinct — with duplicate names `find` returns the id of *some* entry with
that name, not necessarily `i`): for every library whose entry names
(NUL-trimmed raw bytes) are pairwise distinct, every index `i`, and every
ASCII query whose byte-wise upper-casing equals the name of `entries[i]`,
`find` returns `Some(EntryId(i))` — through the binary search when it hits,
through the linear fallback otherwise. -/
theorem c7_find_case_insensitive (lib : Rsli.Library) (i : Nat) (q : List Nat)
    (hdist : ∀ j, j < lib.entries.length → ∀ k, k < lib.entries.length →
      j ≠ k →
      Rsli.c_name_bytes ((lib.entries.getD j Rsli.emptyEntry).name_raw) ≠
        Rsli.c_name_bytes ((lib.entries.getD k Rsli.emptyEntry).name_raw))
    (hi : i < lib.entries.length)
    (hq : q.map Rsli.to_ascii_uppercase =
      Rsli.c_name_bytes ((lib.entries.getD i Rsli.emptyEntry).name_raw)) :
    Rsli.find lib q = some i := by
  unfold Rsli.find
  have hne : ¬ lib.entries.isEmpty = true := by
    rw [List.isEmpty_iff]
    intro h
    rw [h] at hi
    exact absurd hi (by simp)
  rw [if_neg hne]
  unfold Rsli.find_impl
  rw [hq]
  cases hfl : Rsli.findLoop lib.entries
      (Rsli.c_name_bytes ((lib.entries.getD i Rsli.emptyEntry).name_raw))
      (lib.entries.length + 1) 0 lib.entries.length with
  | some j =>
      obtain ⟨hj, hcmp⟩ := Rsli.findLoop_some _ _ _ _ _ _ hfl
      have hname := (Rsli.cmp_c_string_eq_iff _ _).mp hcmp
      have hij : j = i := by
        by_contra hne'
        exact hdist i hi j hj (fun h => hne' h.symm) hname
      rw [hij]
  | none =>
      cases hlf : Rsli.linear_fallback
          (Rsli.c_name_bytes ((lib.entries.getD i Rsli.emptyEntry).name_raw))
          0 lib.entries with
      | none =>
          exact absurd ((Rsli.cmp_c_string_eq_iff _ _).mpr rfl)
            (Rsli.linear_fallback_none _ _ _ hlf i hi)
      | some j =>
          obtain ⟨off, hoff, hj, hcmp⟩ := Rsli.linear_fallback_some _ _ _ _ hlf
          have hname := (Rsli.cmp_c_string_eq_iff _ _).mp hcmp
          have hoi : off = i := by
            by_contra hne'
            exact hdist i hi off hoff (fun h => hne' h.symm) hname
          simp only [hj, hoi, Nat.zero_add]

namespace Rsli

/-- Unsorted archive with two distinct entry names `A` and `B`. -/
def c7_distinct_bytes : List Nat :=
  [78, 76, 0, 1, 2, 0] ++ List.replicate 8 0 ++ [0, 0] ++
    List.replicate 16 0 ++ ([65] ++ List.replicate 31 0) ++
    ([66] ++ List.replicate 31 0)

/-- The parsed form of `c7_distinct_bytes`. -/
def c7_witness_lib : Library :=
  (parse_library c7_distinct_bytes OpenOptions.default).toOption.getD
    { bytes := [], entries := [] }

end Rsli

/-- Witness for C7 at a concrete archive: looking up the lower-case query
`"a"` (byte 97) in a parsed archive whose entries are named `A`, `B` returns
entry id 0. -/
theorem c7_find_case_insensitive_witness :
    Rsli.find Rsli.c7_witness_lib [97] = some 0 :=
  c7_find_case_insensitive Rsli.c7_witness_lib 0 [97] (by decide) (by decide)
    (by decide)

namespace Nres

/-- `ascii_lower` in crates/nres/src/lib.rs. -/
def ascii_lower (value : Nat) : Nat :=
  if 65 ≤ value ∧ value ≤ 90 then value + 32 else value

/-- `cmp_name_case_insensitive`: lexicographic on lowered bytes, then length. -/
def cmp_name_case_insensitive : List Nat → List Nat → Ordering
  | [], [] => .eq
  | [], _ :: _ => .lt
  | _ :: _, [] => .gt
  | a :: as, b :: bs =>
    if ascii_lower a < ascii_lower b then .lt
    else if ascii_lower b < ascii_lower a then .gt
    else cmp_name_case_insensitive as bs

/-- `entry_name_bytes`: the 36-byte field up to the first NUL. -/
def entry_name_bytes (raw : List Nat) : List Nat :=
  raw.takeWhile (fun b => b ≠ 0)

/-- The `sort_index` computation of `Editor::commit` (crates/nres/src/lib.rs
lines 344-355): `sort_order` is the list of original indices sorted stably by
case-insensitive name comparison, and the entry at position `idx` receives
`sort_order[idx]` — the sorted-rank → original-index permutation. Input: the
entries' raw name fields in entry order; output: the written `sort_index`
values in entry order. Rust's stable `sort_by` is modelled by the stable
insertion sort `stableSort`; the `u32::try_from` on an index never fails. -/
def commit_sort_indices (names_raw : List (List Nat)) : List Nat :=
  Rsli.stableSort (fun a b =>
    cmp_name_case_insensitive (entry_name_bytes (names_raw.getD a []))
      (entry_name_bytes (names_raw.getD b [])) ≠ .gt)
    (List.range names_raw.length)

/-- Modelled from the spec's words: "`sort_index` is filled by sorting entries
by name case-insensitively and storing each entry's position in that sorted
sequence" — entry `i` receives the rank of `i` in the sorted order (the
inverse of the permutation the code writes). -/
def spec_sort_positions (names_raw : List (List Nat)) : List Nat :=
  let sorted := Rsli.stableSort (fun a b =>
    cmp_name_case_insensitive (entry_name_bytes (names_raw.getD a []))
      (entry_name_bytes (names_raw.getD b [])) ≠ .gt)
    (List.range names_raw.length)
  (List.range names_raw.length).map (fun i => sorted.indexOf i)

/-- The comparison swaps with its mirror image. -/
theorem cmp_ci_swap : ∀ (a b : List Nat),
    cmp_name_case_insensitive b a = (cmp_name_case_insensitive a b).swap := by
  intro a
  induction a with
  | nil => intro b; cases b <;> rfl
  | cons x as ih =>
      intro b
      cases b with
      | nil => rfl
      | cons y bs =>
          simp only [cmp_name_case_insensitive]
          by_cases h1 : ascii_lower x < ascii_lower y
          · have h1' : ¬ ascii_lower y < ascii_lower x := by omega
            simp only [if_pos h1, if_neg h1']
            rfl
          · by_cases h2 : ascii_lower y < ascii_lower x
            · simp only [if_pos h2, if_neg h1]
              rfl
            · simp only [if_neg h1, if_neg h2]
              exact ih bs

end Nres

namespace Rsli

/-- `insort` inserts: the result is a permutation of `x :: l`. -/
theorem insort_perm {α : Type} (le : α → α → Bool) (x : α) :
    ∀ l : List α, (insort le x l).Perm (x :: l) := by
  intro l
  induction l with
  | nil => simp [insort]
  | cons y ys ih =>
      simp only [insort]
      split
      · exact List.Perm.refl _
      · exact (List.Perm.cons y ih).trans (List.Perm.swap x y ys)

/-- `stableSort` permutes its input. -/
theorem stableSort_perm {α : Type} (le : α → α → Bool) :
    ∀ l : List α, (stableSort le l).Perm l := by
  intro l
  induction l with
  | nil => exact List.Perm.refl _
  | cons x xs ih =>
      exact (insort_perm le x (stableSort le xs)).trans (List.Perm.cons x ih)

/-- With a total comparator, inserting into an adjacently-ordered list
preserves adjacent ordering. -/
theorem insort_chain {α : Type} (le : α → α → Bool)
    (htot : ∀ a b, le a b = true ∨ le b a = true) (x : α) :
    ∀ l : List α, List.Chain' (fun a b => le a b = true) l →
      List.Chain' (fun a b => le a b = true) (insort le x l) := by
  intro l
  induction l with
  | nil => intro _; simp [insort]
  | cons y ys ih =>
      intro h
      simp only [insort]
      split
      · next hxy => exact List.chain'_cons.mpr ⟨hxy, h⟩
      · next hxy =>
          have hyx : le y x = true := by
            rcases htot x y with h' | h'
            · exact absurd h' hxy
            · exact h'
          cases ys with
          | nil => simp [insort, hyx]
          | cons w ws =>
              obtain ⟨hyw, hts⟩ := List.chain'_cons.mp h
              have hrest := ih hts
              simp only [insort]
              split
              · next hxw =>
                  exact List.chain'_cons.mpr ⟨hyx,
                    List.chain'_cons.mpr ⟨hxw, hts⟩⟩
              · next hxw =>
                  simp only [insort] at hrest
                  rw [if_neg hxw] at hrest
                  exact List.chain'_cons.mpr ⟨hyw, hrest⟩

/-- With a total comparator, `stableSort` yields an adjacently-ordered list. -/
theorem stableSort_chain {α : Type} (le : α → α → Bool)
    (htot : ∀ a b, le a b = true ∨ le b a = true) :
    ∀ l : List α, List.Chain' (fun a b => le a b = true) (stableSort le l) := by
  intro l
  induction l with
  | nil => simp [stableSort]
  | cons x xs ih => exact insort_chain le htot x (stableSort le xs) ih

end Rsli

namespace Nres

/-- The names `Zulu`, `alpha`, `Beta` as byte lists. -/
def zab_names : List (List Nat) :=
  [[90, 117, 108, 117], [97, 108, 112, 104, 97], [66, 101, 116, 97]]

end Nres

/-- C6 (counterexample): committing three entries named Zulu, alpha, Beta
writes the sort_index values [1, 2, 0] — position `idx` receives the original
index of the entry ranked `idx` — whereas the claim's "each entry's position
in the sorted sequence" yields [2, 0, 1] on the same input. -/
theorem c6_commit_sort_counterexample :
    Nres.commit_sort_indices Nres.zab_names = [1, 2, 0] ∧
      Nres.spec_sort_positions Nres.zab_names = [2, 0, 1] ∧
      ([1, 2, 0] : List Nat) ≠ [2, 0, 1] :=
  ⟨rfl, rfl, by decide⟩

/-- C6 (amended): after commit the written sort_index sequence is the
sorted-rank → original-index permutation: it contains each original index
exactly once (a permutation of `0..N`), and reading the entry names through
it in order gives a case-insensitively non-decreasing sequence; committing
Zulu, alpha, Beta in that order produces [1, 2, 0]. -/
theorem c6_commit_sort_forward_permutation (names_raw : List (List Nat)) :
    Nres.commit_sort_indices Nres.zab_names = [1, 2, 0] ∧
      (Nres.commit_sort_indices names_raw).Perm
        (List.range names_raw.length) ∧
      List.Chain' (fun a b =>
          Nres.cmp_name_case_insensitive
            (Nres.entry_name_bytes (names_raw.getD a []))
            (Nres.entry_name_bytes (names_raw.getD b [])) ≠ .gt)
        (Nres.commit_sort_indices names_raw) := by
  refine ⟨rfl, Rsli.stableSort_perm _ _, ?_⟩
  have htot : ∀ a b : Nat,
      (fun a b => decide (Nres.cmp_name_case_insensitive
          (Nres.entry_name_bytes (names_raw.getD a []))
          (Nres.entry_name_bytes (names_raw.getD b [])) ≠ .gt)) a b = true ∨
      (fun a b => decide (Nres.cmp_name_case_insensitive
          (Nres.entry_name_bytes (names_raw.getD a []))
          (Nres.entry_name_bytes (names_raw.getD b [])) ≠ .gt)) b a = true := by
    intro a b
    by_cases hc : Nres.cmp_name_case_insensitive
        (Nres.entry_name_bytes (names_raw.getD a []))
        (Nres.entry_name_bytes (names_raw.getD b [])) = .gt
    · right
      simp only [decide_eq_true_eq]
      rw [Nres.cmp_ci_swap, hc]
      decide
    · left
      simp only [decide_eq_true_eq]
      exact hc
  have hchain := Rsli.stableSort_chain _ htot (List.range names_raw.length)
  exact hchain.imp (fun {a b} h => of_decide_eq_true h)

namespace Texm

/-- Error type mirroring crates/texm/src/error.rs (decode-side variants
included for completeness). -/
inductive Error where
  | HeaderTooSmall (size : Nat)
  | InvalidMagic (got : Nat)
  | InvalidDimensions (width height : Nat)
  | InvalidMipCount (mip_count : Nat)
  | UnknownFormat (format : Nat)
  | IntegerOverflow
  | CoreDataOutOfBounds (expected_end actual_size : Nat)
  | MipIndexOutOfRange (requested mip_count : Nat)
  | MipDataOutOfBounds (offset size payload_size : Nat)
  | InvalidPageMagic
  | InvalidPageSize (expected actual : Nat)
deriving Repr, DecidableEq

def TEXM_MAGIC : Nat := 0x6D786554

def PAGE_MAGIC : Nat := 0x65676150

/-- `PixelFormat`. -/
inductive PixelFormat where
  | Indexed8
  | Rgb565
  | Rgb556
  | Argb4444
  | LuminanceAlpha88
  | Rgb888
  | Argb8888
deriving Repr, DecidableEq

/-- `PixelFormat::from_raw`. -/
def PixelFormat.from_raw (raw : Nat) : Option PixelFormat :=
  if raw = 0 then some .Indexed8
  else if raw = 565 then some .Rgb565
  else if raw = 556 then some .Rgb556
  else if raw = 4444 then some .Argb4444
  else if raw = 88 then some .LuminanceAlpha88
  else if raw = 888 then some .Rgb888
  else if raw = 8888 then some .Argb8888
  else none

/-- `PixelFormat::bytes_per_pixel` (format 888 is stored as 32-bit RGBX). -/
def PixelFormat.bytes_per_pixel : PixelFormat → Nat
  | .Indexed8 => 1
  | .Rgb565 | .Rgb556 | .Argb4444 | .LuminanceAlpha88 => 2
  | .Rgb888 | .Argb8888 => 4

/-- `Header`. -/
structure Header where
  width : Nat
  height : Nat
  mip_count : Nat
  flags4 : Nat
  flags5 : Nat
  unk6 : Nat
  format_raw : Nat
  format : PixelFormat
deriving Repr, DecidableEq

/-- `MipLevel`. -/
structure MipLevel where
  width : Nat
  height : Nat
  offset : Nat
  size : Nat
deriving Repr, DecidableEq

/-- `PageRect`. -/
structure PageRect where
  x : Int
  w : Int
  y : Int
  h : Int
deriving Repr, DecidableEq

/-- `Texture` (the 1024-byte palette kept as its byte list). -/
structure Texture where
  header : Header
  palette : Option (List Nat)
  mip_levels : List MipLevel
  page_rects : List PageRect
deriving Repr, DecidableEq

/-- `read_u32` in crates/texm/src/lib.rs: little-endian, out-of-range is an
integer-overflow error. -/
def read_u32 (data : List Nat) (offset : Nat) : Except Error Nat :=
  if offset + 4 ≤ data.length then .ok (Rsli.read_u32_le data offset)
  else .error .IntegerOverflow

/-- `read_i16` in crates/texm/src/lib.rs. -/
def read_i16 (data : List Nat) (offset : Nat) : Except Error Int :=
  if offset + 2 ≤ data.length then
    .ok (Rsli.i16_from_le (data.getD offset 0) (data.getD (offset + 1) 0))
  else .error .IntegerOverflow

/-- The mip loop of `parse_texm`: each level is `w·h·bpp` bytes (the
`u64` `checked_mul` by `bpp` is mirrored as the explicit `2^64` bound; the
`w·h` product of two `u32` values cannot overflow `u64`), dimensions halve
and clamp to ≥ 1. Returns the levels and the final offset. -/
def parse_mips (payloadLen bpp : Nat) :
    Nat → Nat → Nat → Nat → Except Error (List MipLevel × Nat)
  | 0, _w, _h, offset => .ok ([], offset)
  | r + 1, w, h, offset =>
    let level_size := w * h * bpp
    if 18446744073709551616 ≤ level_size then .error .IntegerOverflow
    else if payloadLen < offset + level_size then
      .error (.CoreDataOutOfBounds (offset + level_size) payloadLen)
    else
      match parse_mips payloadLen bpp r (max (w / 2) 1) (max (h / 2) 1)
          (offset + level_size) with
      | .error e => .error e
      | .ok (rest, core) =>
        .ok ({ width := w, height := h, offset := offset,
               size := level_size } :: rest, core)

/-- The rect loop of `parse_page_tail`. -/
def parse_rects (payload : List Nat) (core_end : Nat) :
    Nat → Nat → Except Error (List PageRect)
  | _i, 0 => .ok []
  | i, r + 1 =>
    let off := core_end + 8 + i * 8
    match read_i16 payload off with
    | .error e => .error e
    | .ok x =>
      match read_i16 payload (off + 2) with
      | .error e => .error e
      | .ok w =>
        match read_i16 payload (off + 4) with
        | .error e => .error e
        | .ok y =>
          match read_i16 payload (off + 6) with
          | .error e => .error e
          | .ok h =>
            match parse_rects payload core_end (i + 1) r with
            | .error e => .error e
            | .ok rest => .ok ({ x := x, w := w, y := y, h := h } :: rest)

/-- `parse_page_tail`: no tail, or a `Page` chunk of exactly
`8 + 8·rect_count` bytes. -/
def parse_page_tail (payload : List Nat) (core_end : Nat) :
    Except Error (List PageRect) :=
  if core_end = payload.length then .ok []
  else if payload.length - core_end < 8 then
    .error (.InvalidPageSize 8 (payload.length - core_end))
  else
    match read_u32 payload core_end with
    | .error e => .error e
    | .ok magic =>
      if magic ≠ PAGE_MAGIC then .error .InvalidPageMagic
      else
        match read_u32 payload (core_end + 4) with
        | .error e => .error e
        | .ok rect_count =>
          let expected_size := 8 + rect_count * 8
          let actual := payload.length - core_end
          if expected_size ≠ actual then
            .error (.InvalidPageSize expected_size actual)
          else parse_rects payload core_end 0 rect_count

/-- `parse_texm` in crates/texm/src/lib.rs. -/
def parse_texm (payload : List Nat) : Except Error Texture :=
  if payload.length < 32 then .error (.HeaderTooSmall payload.length)
  else
    match read_u32 payload 0 with
    | .error e => .error e
    | .ok magic =>
      if magic ≠ TEXM_MAGIC then .error (.InvalidMagic magic)
      else
        match read_u32 payload 4, read_u32 payload 8, read_u32 payload 12,
            read_u32 payload 16, read_u32 payload 20, read_u32 payload 24,
            read_u32 payload 28 with
        | .ok width, .ok height, .ok mip_count, .ok flags4, .ok flags5,
            .ok unk6, .ok format_raw =>
          if width = 0 ∨ height = 0 then .error (.InvalidDimensions width height)
          else if mip_count = 0 then .error (.InvalidMipCount mip_count)
          else
            match PixelFormat.from_raw format_raw with
            | none => .error (.UnknownFormat format_raw)
            | some format =>
              let bytes_per_pixel := format.bytes_per_pixel
              let paletteE : Except Error (Option (List Nat) × Nat) :=
                if format = PixelFormat.Indexed8 then
                  if payload.length < 32 + 1024 then
                    .error (.CoreDataOutOfBounds (32 + 1024) payload.length)
                  else .ok (some ((payload.drop 32).take 1024), 32 + 1024)
                else .ok (none, 32)
              match paletteE with
              | .error e => .error e
              | .ok (palette, off0) =>
                match parse_mips payload.length bytes_per_pixel mip_count
                    width height off0 with
                | .error e => .error e
                | .ok (mip_levels, core_end) =>
                  match parse_page_tail payload core_end with
                  | .error e => .error e
                  | .ok page_rects =>
                    .ok { header := { width := width, height := height,
                                      mip_count := mip_count, flags4 := flags4,
                                      flags5 := flags5, unk6 := unk6,
                                      format_raw := format_raw, format := format }
                          palette := palette
                          mip_levels := mip_levels
                          page_rects := page_rects }
        | _, _, _, _, _, _, _ => .error .IntegerOverflow

end Texm

namespace Texm

/-- The mip loop accounting: the final offset is the initial offset plus the
sum of the level sizes, and it stays within the payload. -/
theorem parse_mips_core (L bpp : Nat) :
    ∀ (r w h off : Nat) (mips : List MipLevel) (core : Nat),
      parse_mips L bpp r w h off = .ok (mips, core) →
      core = off + (mips.map (fun l => l.size)).sum ∧ (off ≤ L → core ≤ L) := by
  intro r
  induction r with
  | zero =>
      intro w h off mips core hp
      cases hp
      exact ⟨by simp, fun hl => hl⟩
  | succ r ih =>
      intro w h off mips core hp
      simp only [parse_mips] at hp
      split at hp
      · cases hp
      · split at hp
        · cases hp
        · next hbound =>
            split at hp
            · cases hp
            · next rest core' hrec =>
                cases hp
                obtain ⟨hcore, _⟩ := ih _ _ _ _ _ hrec
                refine ⟨?_, fun _ => ?_⟩
                · simp only [List.map_cons, List.sum_cons]
                  omega
                · have := (ih _ _ _ _ _ hrec).2 (by omega)
                  exact this

/-- The rect loop produces exactly `rect_count` records. -/
theorem parse_rects_length (payload : List Nat) (core_end : Nat) :
    ∀ (r i : Nat) (rects : List PageRect),
      parse_rects payload core_end i r = .ok rects → rects.length = r := by
  intro r
  induction r with
  | zero => intro i rects h; cases h; rfl
  | succ r ih =>
      intro i rects h
      simp only [parse_rects] at h
      split at h
      · cases h
      · split at h
        · cases h
        · split at h
          · cases h
          · split at h
            · cases h
            · split at h
              · cases h
              · next rest hrec =>
                  cases h
                  simp only [List.length_cons, ih _ _ hrec]

/-- The tail accounting: after a successful tail parse the trailing byte
count is 0 or exactly `8 + 8·rect_count`. -/
theorem parse_page_tail_len (payload : List Nat) (core : Nat)
    (rects : List PageRect) (h : parse_page_tail payload core = .ok rects) :
    payload.length - core = 0 ∨
      payload.length - core = 8 + 8 * rects.length := by
  simp only [parse_page_tail] at h
  split at h
  · next hc => left; omega
  · split at h
    · cases h
    · split at h
      · cases h
      · next magic hm =>
          split at h
          · cases h
          · split at h
            · cases h
            · next rc hrc =>
                split at h
                · cases h
                · next hsz =>
                    right
                    rw [parse_rects_length payload core rc 0 rects h]
                    omega

end Texm

/-- C8: for every payload on which `parse_texm` succeeds the byte layout is
exactly accounted for: 32 header bytes, plus 1024 exactly when a palette is
present (format code 0), plus the sum of all mip level sizes, plus a tail
that is either empty or a `Page` chunk of exactly `8 + 8·rect_count` bytes,
equals the payload length (so any other trailing byte count fails). -/
theorem c8_texm_layout_accounting (payload : List Nat) (t : Texm.Texture)
    (h : Texm.parse_texm payload = .ok t) :
    ∃ tail, (tail = 0 ∨ tail = 8 + 8 * t.page_rects.length) ∧
      payload.length = 32 + (if t.palette.isSome then 1024 else 0) +
        (t.mip_levels.map (fun l => l.size)).sum + tail := by
  simp only [Texm.parse_texm] at h
  split at h
  · cases h
  · next hlen =>
    split at h
    · cases h
    · split at h
      · cases h
      · split at h
        · split at h
          · cases h
          · split at h
            · cases h
            · split at h
              · cases h
              · next format hfmt =>
                  split at h
                  · cases h
                  · next palette off0 hpal =>
                      split at h
                      · cases h
                      · next mips core hmips =>
                          split at h
                          · cases h
                          · next rects htail =>
                              cases h
                              dsimp only
                              have hoff0 : off0 = 32 +
                                  (if palette.isSome then 1024 else 0) ∧
                                  off0 ≤ payload.length := by
                                split at hpal
                                · split at hpal
                                  · cases hpal
                                  · next hplen =>
                                      cases hpal
                                      exact ⟨by simp, by omega⟩
                                · cases hpal
                                  exact ⟨by simp, by omega⟩
                              obtain ⟨hcore, hle⟩ :=
                                Texm.parse_mips_core payload.length _ _ _ _ _ _ _ hmips
                              have hcl := hle hoff0.2
                              have htl := Texm.parse_page_tail_len payload core rects htail
                              refine ⟨payload.length - core, htl, ?_⟩
                              rw [hoff0.1] at hcore
                              omega
        · cases h

namespace Texm

/-- A 1×1 RGB565 texture with one mip level and no tail: 34 bytes. -/
def c8_witness_payload : List Nat :=
  [0x54, 0x65, 0x78, 0x6D, 1, 0, 0, 0, 1, 0, 0, 0, 1, 0, 0, 0, 0, 0, 0, 0,
   0, 0, 0, 0, 0, 0, 0, 0, 0x35, 0x02, 0, 0, 0xAB, 0xCD]

/-- The parse result of `c8_witness_payload`. -/
def c8_witness_texture : Texture :=
  { header := { width := 1, height := 1, mip_count := 1, flags4 := 0,
                flags5 := 0, unk6 := 0, format_raw := 565, format := .Rgb565 }
    palette := none
    mip_levels := [{ width := 1, height := 1, offset := 32, size := 2 }]
    page_rects := [] }

end Texm

/-- Witness for C8 at a concrete 34-byte texture payload. -/
theorem c8_texm_layout_accounting_witness :
    ∃ tail, (tail = 0 ∨ tail = 8 + 8 * Texm.c8_witness_texture.page_rects.length) ∧
      Texm.c8_witness_payload.length = 32 +
        (if Texm.c8_witness_texture.palette.isSome then 1024 else 0) +
        (Texm.c8_witness_texture.mip_levels.map (fun l => l.size)).sum + tail :=
  c8_texm_layout_accounting Texm.c8_witness_payload Texm.c8_witness_texture rfl

namespace Msh

/-- Error variants of crates/msh-core/src/error.rs used by the name parser. -/
inductive Error where
  | InvalidResourceSize (label : String) (size stride : Nat)
  | IntegerOverflow
deriving Repr, DecidableEq

/-- `read_u32` in crates/msh-core/src/lib.rs. -/
def read_u32 (data : List Nat) (offset : Nat) : Except Error Nat :=
  if offset + 4 ≤ data.length then .ok (Rsli.read_u32_le data offset)
  else .error .IntegerOverflow

/-- True for a UTF-8 continuation byte `0x80..0xBF`. -/
def utf8_cont (b : Nat) : Bool := 0x80 ≤ b ∧ b ≤ 0xBF

/-- The semantics of Rust's `String::from_utf8_lossy` (called by
`parse_res10_names`): UTF-8 decoding where each maximal invalid prefix
becomes one U+FFFD replacement character. The first argument is a step
counter for the (length-decreasing) recursion; every step consumes at least
one byte, so `bytes.length` steps always suffice and the zero case is never
reached from the wrapper. Result: the decoded code points. -/
def utf8_lossyAux : Nat → List Nat → List Nat
  | 0, _ => []
  | _fuel + 1, [] => []
  | fuel + 1, b :: rest =>
    if b < 0x80 then b :: utf8_lossyAux fuel rest
    else if 0xC2 ≤ b ∧ b ≤ 0xDF then
      match rest with
      | c1 :: rest1 =>
        if utf8_cont c1 then
          ((b - 0xC0) * 64 + (c1 - 0x80)) :: utf8_lossyAux fuel rest1
        else 0xFFFD :: utf8_lossyAux fuel rest
      | [] => [0xFFFD]
    else if 0xE0 ≤ b ∧ b ≤ 0xEF then
      match rest with
      | c1 :: rest1 =>
        if (b = 0xE0 ∧ 0xA0 ≤ c1 ∧ c1 ≤ 0xBF) ∨
            (0xE1 ≤ b ∧ b ≤ 0xEC ∧ utf8_cont c1) ∨
            (b = 0xED ∧ 0x80 ≤ c1 ∧ c1 ≤ 0x9F) ∨
            (0xEE ≤ b ∧ b ≤ 0xEF ∧ utf8_cont c1) then
          match rest1 with
          | c2 :: rest2 =>
            if utf8_cont c2 then
              ((b - 0xE0) * 4096 + (c1 - 0x80) * 64 + (c2 - 0x80)) ::
                utf8_lossyAux fuel rest2
            else 0xFFFD :: utf8_lossyAux fuel rest1
          | [] => [0xFFFD]
        else 0xFFFD :: utf8_lossyAux fuel rest
      | [] => [0xFFFD]
    else if 0xF0 ≤ b ∧ b ≤ 0xF4 then
      match rest with
      | c1 :: rest1 =>
        if (b = 0xF0 ∧ 0x90 ≤ c1 ∧ c1 ≤ 0xBF) ∨
            (0xF1 ≤ b ∧ b ≤ 0xF3 ∧ utf8_cont c1) ∨
            (b = 0xF4 ∧ 0x80 ≤ c1 ∧ c1 ≤ 0x8F) then
          match rest1 with
          | c2 :: rest2 =>
            if utf8_cont c2 then
              match rest2 with
              | c3 :: rest3 =>
                if utf8_cont c3 then
                  ((b - 0xF0) * 262144 + (c1 - 0x80) * 4096 +
                    (c2 - 0x80) * 64 + (c3 - 0x80)) :: utf8_lossyAux fuel rest3
                else 0xFFFD :: utf8_lossyAux fuel rest2
              | [] => [0xFFFD]
            else 0xFFFD :: utf8_lossyAux fuel rest1
          | [] => [0xFFFD]
        else 0xFFFD :: utf8_lossyAux fuel rest
      | [] => [0xFFFD]
    else 0xFFFD :: utf8_lossyAux fuel rest

/-- See `utf8_lossyAux`. -/
def utf8_lossy (bytes : List Nat) : List Nat :=
  utf8_lossyAux bytes.length bytes

/-- The node-name loop of `parse_res10_names` (crates/msh-core/src/lib.rs):
per node a `u32` length, then `length + 1` bytes when non-zero; a trailing
NUL is stripped before decoding; the bytes are decoded with
`String::from_utf8_lossy` (NOT CP1251). Results are code-point lists. -/
def parse_res10_loop (data : List Nat) :
    Nat → Nat → Except Error (List (Option (List Nat)))
  | _off, 0 => .ok []
  | off, r + 1 =>
    match read_u32 data off with
    | .error e => .error e
    | .ok len =>
      let off1 := off + 4
      if len = 0 then
        match parse_res10_loop data off1 r with
        | .error e => .error e
        | .ok rest => .ok (none :: rest)
      else
        let need := len + 1
        let endOff := off1 + need
        if data.length < endOff then
          .error (.InvalidResourceSize "Res10" data.length 1)
        else
          let slice := (data.drop off1).take need
          let text :=
            if slice.getLast? = some 0 then slice.take (slice.length - 1)
            else slice
          match parse_res10_loop data endOff r with
          | .error e => .error e
          | .ok rest => .ok (some (utf8_lossy text) :: rest)

/-- `parse_res10_names`. -/
def parse_res10_names (data : List Nat) (node_count : Nat) :
    Except Error (List (Option (List Nat))) :=
  parse_res10_loop data 0 node_count

/-- Modelled from the spec: the standard Windows-1251 decoding table for the
high half `0x80..0xBF` (the undefined cell 0x98 maps to U+0098 as in the
standard table); bytes `0xC0..0xFF` map linearly to U+0410..U+044F and bytes
below 0x80 map to themselves. The implementation decodes through
`String::from_utf8_lossy` and `char::from` instead, which this table is
compared against. -/
def cp1251_high : List Nat :=
  [0x0402, 0x0403, 0x201A, 0x0453, 0x201E, 0x2026, 0x2020, 0x2021,
   0x20AC, 0x2030, 0x0409, 0x2039, 0x040A, 0x040C, 0x040B, 0x040F,
   0x0452, 0x2018, 0x2019, 0x201C, 0x201D, 0x2022, 0x2013, 0x2014,
   0x0098, 0x2122, 0x0459, 0x203A, 0x045A, 0x045C, 0x045B, 0x045F,
   0x00A0, 0x040E, 0x045E, 0x0408, 0x00A4, 0x0490, 0x00A6, 0x00A7,
   0x0401, 0x00A9, 0x0404, 0x00AB, 0x00AC, 0x00AD, 0x00AE, 0x0407,
   0x00B0, 0x00B1, 0x0406, 0x0456, 0x0491, 0x00B5, 0x00B6, 0x00B7,
   0x0451, 0x2116, 0x0454, 0x00BB, 0x0458, 0x0405, 0x0455, 0x0457]

/-- Modelled from the spec: decode one byte through the Windows-1251 table. -/
def cp1251_decode_byte (b : Nat) : Nat :=
  if b < 0x80 then b
  else if b < 0xC0 then cp1251_high.getD (b - 0x80) 0xFFFD
  else 0x410 + (b - 0xC0)

/-- Modelled from the spec: decode a byte string through Windows-1251. -/
def cp1251_decode (bytes : List Nat) : List Nat :=
  bytes.map cp1251_decode_byte

end Msh

/-- C9 (code evaluation at the failing input): a Res10 node-name record with
the single byte 0xC0 (`А` in CP1251) and its trailing NUL. The code decodes
it with `String::from_utf8_lossy`, yielding U+FFFD, and RsLi entry names go
through `char::from` (Latin-1), yielding U+00C0 — neither is the CP1251
U+0410 the claim (and the crate's own test `parse_res10_names_decodes_cp1251`)
requires. -/
theorem c9_res10_name_not_cp1251 :
    Msh.parse_res10_names [1, 0, 0, 0, 0xC0, 0] 1 = .ok [some [0xFFFD]] ∧
      Msh.cp1251_decode [0xC0] = [0x410] ∧
      Rsli.decode_name [0xC0] = [0xC0] ∧
      (0xFFFD : Nat) ≠ 0x410 ∧ (0xC0 : Nat) ≠ 0x410 :=
  ⟨rfl, rfl, rfl, by decide, by decide⟩
